import Mathlib

/-!
# Verification of the PDF structure compiler and its reference codec

This file gives a shallow embedding, in Lean 4, of the core of the
`pdf-structure-visualizer` repository (`src/visualization.py`):

* `Viz.compileParsedContent` embeds the Python function
  `compile_parsed_content` (the "Structure Compiler"): a single pass over a
  list of classified fragments that produces content entries grouped by
  section/subsection and a list of extracted resources with captions bound
  to them.
* `Viz.parseBlockLinks` embeds `parse_block_links` (the "Reference Codec"
  decoder): it splits a string on occurrences of `[block:<digits>]` markers,
  exactly as `re.split(r'(\[block:\d+\])', text)` does, turning marker
  occurrences into linked spans and everything else into plain spans.
* `Viz.parseResourceBlockIdx` embeds the `content_block` extraction logic of
  `build_nested_compiled_structure_html` (lines 263-276), including the
  Python truthiness guard `if content_block:` and the
  `int(content_block.strip("[block:").strip("]"))` fallback-to-zero parse.

Python strings are modelled as `String`; `str.strip()` / `str.strip(chars)` /
`str.lower()` are modelled by `pyStrip` / `pyStripChars` / `pyLower`, which
operate on the underlying character list (CPython strips a slightly larger
set of Unicode whitespace and lowercases beyond ASCII; every string the
claims touch is ASCII, where these models agree with CPython).  The Python
`dict` of section-header mappings is modelled as an association list with
first-match lookup (`dictGet`), which agrees with `dict.get` since `dict`
keys are unique.  `enumerate` is modelled by a `pos` counter threaded through
the fold state.  Fragment indices are rendered in decimal with `Nat.repr`,
matching Python's `str.format` on a nonnegative `int`.
-/

namespace Viz

/-- One classified fragment produced by the upstream segmentation stage.
A missing `"text"` key in the Python dict is `none` here; `compile` treats
it as the empty string (`block.get("text") or ""`).  The `type` field is
matched against string literals, exactly as the Python code does. -/
structure Block where
  type : String
  text : Option String
deriving DecidableEq

/-- One contiguous run of flowing text with its section/subsection labels,
as appended by `flush_current_text`. -/
structure ContentEntry where
  «section» : String
  section_block : String
  subsection : String
  subsection_block : String
  text : String
deriving DecidableEq

/-- An extracted image or table resource.  `content_block` is the
(zero-based) index of the originating fragment; `description_block` is the
index of the caption fragment bound to it, if any (Python `None` is
`none`). -/
structure Resource where
  reference : String
  content : String
  content_type : String
  description : String
  content_block : Nat
  description_block : Option Nat
deriving DecidableEq

/-- The structured output of `compile_parsed_content`. -/
structure CompiledDocument where
  content : List ContentEntry
  resources : List Resource
deriving DecidableEq

/-- Whitespace test used by Python's `str.strip()` (ASCII fragment). -/
def isWS (c : Char) : Bool := c.isWhitespace

/-- Python `s.strip()`: remove leading and trailing whitespace. -/
def pyStrip (s : String) : String :=
  String.mk (((s.data.dropWhile isWS).reverse.dropWhile isWS).reverse)

/-- Python `s.strip(chars)`: remove leading and trailing characters that
belong to the character set `chars`. -/
def pyStripChars (s : String) (chars : List Char) : String :=
  String.mk (((s.data.dropWhile (chars.contains ·)).reverse.dropWhile (chars.contains ·)).reverse)

/-- Python `s.lower()` (ASCII fragment). -/
def pyLower (s : String) : String := String.mk (s.data.map Char.toLower)

/-- Python `dict.get(key, None)` on an association list (dict keys are
unique, so first-match lookup agrees with the Python dict). -/
def dictGet : List (String × String) → String → Option String
  | [], _ => none
  | (k, v) :: rest, key => if k = key then some v else dictGet rest key

/-- The block marker for fragment index `i`: the default
`block_link_format="[block:{}]"` applied to `i`. -/
def blockRef (i : Nat) : String := "[block:" ++ Nat.repr i ++ "]"

/-- A text span wrapped with the fragment's position marker on both sides:
`f"{block_ref}{text}{block_ref}"`. -/
def wrapRef (i : Nat) (t : String) : String := blockRef i ++ t ++ blockRef i

/-- The reference id `f"[image:{image_counter}]"`. -/
def imageRef (n : Nat) : String := "[image:" ++ Nat.repr n ++ "]"

/-- The reference id `f"[table:{table_counter}]"`. -/
def tableRef (n : Nat) : String := "[table:" ++ Nat.repr n ++ "]"

/-- Python `" ".join(l)`. -/
def spaceJoin : List String → String
  | [] => ""
  | [x] => x
  | x :: xs => x ++ " " ++ spaceJoin xs

/-- The mutable state of one `compile_parsed_content` call.  `pos` is the
`enumerate` index of the next fragment.  The Python `last_resource`
reference always aliases the most recently appended element of `resources`
(it is assigned only at append time and never cleared), so it is modelled
as `resources.getLast?`. -/
structure CompileState where
  pos : Nat
  content_sections : List ContentEntry
  resources : List Resource
  current_section : String
  current_section_block : String
  current_subsection : String
  current_subsection_block : String
  current_text_buffer : List String
  image_counter : Nat
  table_counter : Nat
deriving DecidableEq

/-- Initial state of a compilation run. -/
def initState : CompileState :=
  { pos := 0, content_sections := [], resources := [],
    current_section := "section_1", current_section_block := "",
    current_subsection := "subsection_1", current_subsection_block := "",
    current_text_buffer := [], image_counter := 1, table_counter := 1 }

/-- `flush_current_text`: if the buffer is non-empty, join it with single
spaces into a new content entry and clear it; otherwise do nothing. -/
def flushCurrentText (s : CompileState) : CompileState :=
  if s.current_text_buffer = [] then s
  else
    { s with
      content_sections := s.content_sections ++
        [{ «section» := s.current_section, section_block := s.current_section_block,
           subsection := s.current_subsection, subsection_block := s.current_subsection_block,
           text := spaceJoin s.current_text_buffer }],
      current_text_buffer := [] }

/-- The loop body of `compile_parsed_content` for one fragment.  The guard
`if mapped and mapped.lower() != "none"` requires the looked-up value to be
present, non-empty (Python truthiness) and different from `"none"` up to
case. -/
def processBlock (m : List (String × String)) (s : CompileState) (b : Block) : CompileState :=
  let block_ref := blockRef s.pos
  let block_text := pyStrip (b.text.getD "")
  let s' :=
    if b.type = "Section header" then
      match dictGet m block_text with
      | some mapped =>
          if mapped ≠ "" ∧ pyLower mapped ≠ "none" then
            let s := flushCurrentText s
            { s with current_section := pyLower mapped, current_section_block := block_ref,
                     current_subsection := "subsection_1", current_subsection_block := "" }
          else
            let s := flushCurrentText s
            { s with current_subsection := block_text, current_subsection_block := block_ref }
      | none =>
          let s := flushCurrentText s
          { s with current_subsection := block_text, current_subsection_block := block_ref }
    else if b.type = "Picture" ∨ b.type = "Table" then
      let rref := if b.type = "Picture" then imageRef s.image_counter else tableRef s.table_counter
      let ctype := if b.type = "Picture" then "image" else "table"
      let s :=
        if b.type = "Picture" then { s with image_counter := s.image_counter + 1 }
        else { s with table_counter := s.table_counter + 1 }
      { s with
        resources := s.resources ++
          [{ reference := rref, content := block_text, content_type := ctype,
             description := "", content_block := s.pos, description_block := none }],
        current_text_buffer := s.current_text_buffer ++ [wrapRef s.pos rref] }
    else if b.type = "Caption" then
      match s.resources.getLast? with
      | some last =>
          if last.description = "" then
            { s with
              resources := s.resources.dropLast ++
                [{ last with description := wrapRef s.pos block_text,
                             description_block := some s.pos }] }
          else s
      | none =>
          if block_text ≠ "" then
            { s with current_text_buffer := s.current_text_buffer ++ [wrapRef s.pos block_text] }
          else s
    else
      if block_text ≠ "" then
        { s with current_text_buffer := s.current_text_buffer ++ [wrapRef s.pos block_text] }
      else s
  { s' with pos := s.pos + 1 }

/-- `compile_parsed_content`: fold the loop body over the fragments, flush
the remaining buffer, and add the default content entry if no entry was
ever appended. -/
def compileParsedContent (parsed_content : List Block)
    (section_headers_mapping : List (String × String)) : CompiledDocument :=
  let s := parsed_content.foldl (processBlock section_headers_mapping) initState
  let s := flushCurrentText s
  { content :=
      if s.content_sections = [] then
        [{ «section» := s.current_section, section_block := s.current_section_block,
           subsection := s.current_subsection, subsection_block := s.current_subsection_block,
           text := "" }]
      else s.content_sections,
    resources := s.resources }

/-! ## The Reference Codec decoder (`parse_block_links`)

`re.split(r'(\[block:\d+\])', text)` scans for leftmost, non-overlapping
occurrences of `[block:<digits>]` and returns the interleaving of
non-delimiter parts (possibly empty) and delimiter parts; the code then
turns each delimiter part into a clickable span carrying
`int(m.group(1))` and every other part into a plain span.  The scanner is
modelled character by character: at each position, either a marker starts
there (the regex `\d+` being greedy is equivalent to taking the maximal
digit run and requiring `]` right after it) or the scanner advances one
character.  The recursion is fuelled by the input length so that the
function is structurally recursive, hence evaluable by `decide`/`rfl`. -/

/-- One output span of the decoder: `html.Span(part)` for plain parts,
`html.Span(part, id={'index': i})` for marker parts. -/
inductive Span where
  | plain (text : String)
  | linked (idx : Nat) (text : String)
deriving DecidableEq

/-- Decimal value of a digit character. -/
def digitVal (c : Char) : Nat := c.toNat - '0'.toNat

/-- Value of a big-endian decimal digit string, as `int(...)` computes it
on a digit-only string (leading zeros allowed). -/
def natOfDigits (ds : List Char) : Nat := ds.foldl (fun a c => a * 10 + digitVal c) 0

/-- The character sequence of a `[block:...]` marker with digit run `ds`. -/
def markerChars (ds : List Char) : List Char :=
  '[' :: 'b' :: 'l' :: 'o' :: 'c' :: 'k' :: ':' :: (ds ++ [']'])

/-- Try to match the regex `\[block:(\d+)\]` at the head of `cs`.  On
success, return the decoded index, the matched digit run and the remaining
input. -/
def tryMarker (cs : List Char) : Option (Nat × List Char × List Char) :=
  if cs.take 7 = ['[', 'b', 'l', 'o', 'c', 'k', ':'] then
    let rest := cs.drop 7
    let ds := rest.takeWhile Char.isDigit
    let rest1 := rest.dropWhile Char.isDigit
    if ds ≠ [] ∧ rest1.head? = some ']' then some (natOfDigits ds, ds, rest1.tail)
    else none
  else none

/-- The split-and-tag loop.  `acc` is the current non-delimiter part being
accumulated; a marker occurrence emits the pending plain part, then the
linked marker part, and resumes with an empty accumulator.  `fuel` bounds
the recursion depth (a marker consumes at least nine characters, a plain
character one, so `cs.length` fuel always suffices). -/
def decodeGo : Nat → List Char → List Char → List Span
  | 0, cs, acc => [Span.plain (String.mk (acc ++ cs))]
  | fuel + 1, cs, acc =>
    match tryMarker cs with
    | some (n, ds, rest) =>
        Span.plain (String.mk acc) :: Span.linked n (String.mk (markerChars ds)) ::
          decodeGo fuel rest []
    | none =>
        match cs with
        | [] => [Span.plain (String.mk acc)]
        | c :: cs' => decodeGo fuel cs' (acc ++ [c])

/-- Decode a character list into spans. -/
def decodeList (cs : List Char) : List Span := decodeGo cs.length cs []

/-- `parse_block_links`: decode a compiled text into its span sequence. -/
def parseBlockLinks (text : String) : List Span := decodeList text.data

/-- The fragment indices carried by the linked spans, in order. -/
def linkedIndices (spans : List Span) : List Nat :=
  spans.filterMap fun sp => match sp with | .linked n _ => some n | .plain _ => none

/-- The fragment indices recoverable from a character list. -/
def markerIdx (cs : List Char) : List Nat := linkedIndices (decodeList cs)

/-- The indices recoverable from all content entries of a compiled
document, in output order. -/
def contentIndices (doc : CompiledDocument) : List Nat :=
  (doc.content.map fun e => markerIdx e.text.data).flatten

/-! ## Resource `content_block` extraction
(`build_nested_compiled_structure_html`, lines 263-276) -/

/-- The `content_block` field as the renderer receives it: a raw integer or
a string. -/
inductive ContentBlockVal where
  | int (n : Int)
  | str (s : String)
deriving DecidableEq

/-- The digit phase of Python `int(str)`: a non-empty all-digit run with an
already-determined sign. -/
def pyIntDigits (sign : Int) (ds : List Char) : Option Int :=
  if ds ≠ [] ∧ ds.all Char.isDigit = true then some (sign * (natOfDigits ds : Int)) else none

/-- The sign phase of Python `int(str)`: one optional leading sign. -/
def pyIntAux (t : List Char) : Option Int :=
  if t.head? = some '-' then pyIntDigits (-1) t.tail
  else if t.head? = some '+' then pyIntDigits 1 t.tail
  else pyIntDigits 1 t

/-- Python `int(str)` on a string: strip surrounding whitespace, allow one
optional sign, then require a non-empty run of decimal digits.  (CPython
additionally accepts single underscores between digits; no input in this
development contains one.) -/
def pyIntOfString (s : String) : Option Int :=
  pyIntAux (((s.data.dropWhile isWS).reverse.dropWhile isWS).reverse)

/-- The clickable-link index the renderer computes from a resource's
`content_block`: `none` when the Python truthiness guard
`if content_block:` fails (integer `0` or empty string), otherwise the
integer itself for integers, and for strings the result of
`int(content_block.strip("[block:").strip("]"))` with fallback `0` when
that conversion raises. -/
def strBlockIdx (s : String) : Int :=
  match pyIntOfString (pyStripChars (pyStripChars s "[block:".data) "]".data) with
  | some k => k
  | none => 0

def parseResourceBlockIdx : ContentBlockVal → Option Int
  | .int n => if n = 0 then none else some n
  | .str s => if s = "" then none else some (strBlockIdx s)

/-! ## Decimal rendering of fragment indices

`Nat.repr` (the meaning of Python's `"{}".format(idx)` / f-string
interpolation for a nonnegative integer) produces a non-empty string of
decimal digits whose value is the rendered number.  These are the facts the
codec round trip needs. -/

theorem digitChar_isDigit {d : Nat} (h : d < 10) : (Nat.digitChar d).isDigit = true := by
  interval_cases d <;> decide

theorem digitVal_digitChar {d : Nat} (h : d < 10) : digitVal (Nat.digitChar d) = d := by
  interval_cases d <;> decide

theorem toDigitsCore_append (fuel : Nat) :
    ∀ (n : Nat) (acc : List Char),
      Nat.toDigitsCore 10 fuel n acc = Nat.toDigitsCore 10 fuel n [] ++ acc := by
  induction fuel with
  | zero => intro n acc; simp [Nat.toDigitsCore]
  | succ fuel ih =>
    intro n acc
    simp only [Nat.toDigitsCore]
    by_cases h : n / 10 = 0
    · simp [h]
    · simp only [h, if_false]
      rw [ih (n / 10) (Nat.digitChar (n % 10) :: acc), ih (n / 10) [Nat.digitChar (n % 10)]]
      simp

theorem mem_toDigitsCore_isDigit (fuel : Nat) :
    ∀ (n : Nat), ∀ c ∈ Nat.toDigitsCore 10 fuel n [], c.isDigit = true := by
  induction fuel with
  | zero => intro n c hc; simp [Nat.toDigitsCore] at hc
  | succ fuel ih =>
    intro n c hc
    simp only [Nat.toDigitsCore] at hc
    by_cases h : n / 10 = 0
    · simp [h] at hc
      subst hc; exact digitChar_isDigit (Nat.mod_lt _ (by norm_num))
    · rw [if_neg h, toDigitsCore_append] at hc
      rcases List.mem_append.1 hc with h1 | h1
      · exact ih _ _ h1
      · simp at h1; subst h1; exact digitChar_isDigit (Nat.mod_lt _ (by norm_num))

theorem natOfDigits_append_singleton (l : List Char) (c : Char) :
    natOfDigits (l ++ [c]) = natOfDigits l * 10 + digitVal c := by
  simp [natOfDigits, List.foldl_append]

theorem natOfDigits_toDigitsCore (fuel : Nat) :
    ∀ n : Nat, n < fuel → natOfDigits (Nat.toDigitsCore 10 fuel n []) = n := by
  induction fuel with
  | zero => intro n h; omega
  | succ fuel ih =>
    intro n h
    simp only [Nat.toDigitsCore]
    by_cases h0 : n / 10 = 0
    · rw [if_pos h0]
      have hn : n < 10 := by omega
      show natOfDigits [Nat.digitChar (n % 10)] = n
      have hv : natOfDigits [Nat.digitChar (n % 10)] = digitVal (Nat.digitChar (n % 10)) := by
        simp [natOfDigits]
      rw [hv, digitVal_digitChar (Nat.mod_lt _ (by norm_num)), Nat.mod_eq_of_lt hn]
    · rw [if_neg h0, toDigitsCore_append, natOfDigits_append_singleton,
        ih (n / 10) (by omega), digitVal_digitChar (Nat.mod_lt _ (by norm_num))]
      omega

theorem toDigits_ne_nil (n : Nat) : Nat.toDigits 10 n ≠ [] := by
  simp only [Nat.toDigits, Nat.toDigitsCore]
  by_cases h : n / 10 = 0
  · simp [h]
  · rw [if_neg h, toDigitsCore_append]; simp

theorem repr_data (n : Nat) : (Nat.repr n).data = Nat.toDigits 10 n := rfl

theorem mem_repr_isDigit (n : Nat) : ∀ c ∈ (Nat.repr n).data, c.isDigit = true :=
  mem_toDigitsCore_isDigit (n + 1) n

theorem natOfDigits_repr (n : Nat) : natOfDigits (Nat.repr n).data = n :=
  natOfDigits_toDigitsCore (n + 1) n (Nat.lt_succ_self n)

theorem repr_data_ne_nil (n : Nat) : (Nat.repr n).data ≠ [] := toDigits_ne_nil n

end Viz

namespace Viz

theorem strExt {s t : String} (h : s.data = t.data) : s = t := by
  cases s; cases t; exact congrArg String.mk h

theorem mk_data (s : String) : String.mk s.data = s := by cases s; rfl

theorem blockRef_data (i : Nat) : (blockRef i).data = markerChars (Nat.repr i).data := by
  have h1 : ("[block:" : String).data = ['[', 'b', 'l', 'o', 'c', 'k', ':'] := rfl
  have h2 : ("]" : String).data = [']'] := rfl
  show ("[block:" ++ Nat.repr i ++ "]").data = _
  rw [String.data_append, String.data_append, h1, h2]
  simp [markerChars]

theorem takeWhile_all_append {p : Char → Bool} :
    ∀ {l : List Char}, (∀ c ∈ l, p c = true) → ∀ {b : Char}, p b = false → ∀ r : List Char,
      (l ++ b :: r).takeWhile p = l ∧ (l ++ b :: r).dropWhile p = b :: r := by
  intro l
  induction l with
  | nil => intro _ b hb r; simp [List.takeWhile, List.dropWhile, hb]
  | cons c l ih =>
    intro hl b hb r
    have hc : p c = true := hl c (List.mem_cons_self c l)
    have ih' := ih (fun x hx => hl x (List.mem_cons_of_mem c hx)) hb r
    simp [List.takeWhile_cons, List.dropWhile_cons, hc, ih'.1, ih'.2]

theorem tryMarker_markerChars {ds : List Char} (hne : ds ≠ [])
    (hdig : ∀ c ∈ ds, c.isDigit = true) (rest : List Char) :
    tryMarker (markerChars ds ++ rest) = some (natOfDigits ds, ds, rest) := by
  have hsplit : markerChars ds ++ rest =
      '[' :: 'b' :: 'l' :: 'o' :: 'c' :: 'k' :: ':' :: (ds ++ ']' :: rest) := by
    simp [markerChars]
  have htake : ('[' :: 'b' :: 'l' :: 'o' :: 'c' :: 'k' :: ':' :: (ds ++ ']' :: rest)).take 7 =
      ['[', 'b', 'l', 'o', 'c', 'k', ':'] := rfl
  have hdrop : ('[' :: 'b' :: 'l' :: 'o' :: 'c' :: 'k' :: ':' :: (ds ++ ']' :: rest)).drop 7 =
      ds ++ ']' :: rest := rfl
  have hw := takeWhile_all_append hdig (by decide : (']' : Char).isDigit = false) rest
  rw [hsplit, tryMarker, htake, if_pos rfl]
  simp only [hdrop, hw.1, hw.2]
  rw [if_pos ⟨hne, rfl⟩]
  rfl


theorem tryMarker_not_lbracket {c : Char} (hc : c ≠ '[') (l : List Char) :
    tryMarker (c :: l) = none := by
  rw [tryMarker, if_neg]
  intro h
  have h7 : (c :: l).take 7 = c :: l.take 6 := rfl
  rw [h7] at h
  injection h with h1 _
  exact hc h1

theorem tryMarker_lbracket_not_b {c : Char} (hc : c ≠ 'b') (l : List Char) :
    tryMarker ('[' :: c :: l) = none := by
  rw [tryMarker, if_neg]
  intro h
  have h7 : ('[' :: c :: l).take 7 = '[' :: c :: l.take 5 := rfl
  rw [h7] at h
  injection h with _ h2
  injection h2 with h3 _
  exact hc h3

theorem tryMarker_length {cs : List Char} {n : Nat} {ds rest : List Char}
    (h : tryMarker cs = some (n, ds, rest)) : rest.length + 8 ≤ cs.length := by
  rw [tryMarker] at h
  by_cases h7 : cs.take 7 = ['[', 'b', 'l', 'o', 'c', 'k', ':']
  · rw [if_pos h7] at h
    have hlen7 : 7 ≤ cs.length := by
      have := congrArg List.length h7
      simp [List.length_take] at this
      omega
    by_cases hcond : (cs.drop 7).takeWhile Char.isDigit ≠ [] ∧
        ((cs.drop 7).dropWhile Char.isDigit).head? = some ']'
    · rw [if_pos hcond] at h
      have hrest : rest = ((cs.drop 7).dropWhile Char.isDigit).tail := by
        have := (Option.some.inj h)
        exact (congrArg (fun p => p.2.2) this).symm
      have hne : (cs.drop 7).dropWhile Char.isDigit ≠ [] := by
        intro he; rw [he] at hcond; simp at hcond
      have hdw : ((cs.drop 7).dropWhile Char.isDigit).length ≤ (cs.drop 7).length :=
        (List.dropWhile_sublist Char.isDigit).length_le
      have hdl : (cs.drop 7).length = cs.length - 7 := List.length_drop 7 cs
      have htl : rest.length + 1 = ((cs.drop 7).dropWhile Char.isDigit).length := by
        rw [hrest]
        cases hdd : (cs.drop 7).dropWhile Char.isDigit with
        | nil => exact absurd hdd hne
        | cons a l => simp
      omega
    · rw [if_neg hcond] at h; exact absurd h (by simp)
  · rw [if_neg h7] at h; exact absurd h (by simp)


theorem tryMarker_nil : tryMarker [] = none := rfl

theorem decodeGo_nil (fuel : Nat) (acc : List Char) :
    decodeGo fuel [] acc = [Span.plain (String.mk acc)] := by
  cases fuel with
  | zero => simp [decodeGo]
  | succ fuel => simp [decodeGo, tryMarker_nil]

theorem decodeGo_stable : ∀ (fuel fuel' : Nat) (cs acc : List Char),
    cs.length ≤ fuel → cs.length ≤ fuel' → decodeGo fuel cs acc = decodeGo fuel' cs acc := by
  intro fuel
  induction fuel with
  | zero =>
    intro fuel' cs acc h _
    have hcs : cs = [] := List.eq_nil_of_length_eq_zero (Nat.le_zero.1 h)
    subst hcs
    rw [decodeGo_nil, decodeGo_nil]
  | succ fuel ih =>
    intro fuel' cs acc h h'
    cases fuel' with
    | zero =>
      have hcs : cs = [] := List.eq_nil_of_length_eq_zero (Nat.le_zero.1 h')
      subst hcs
      rw [decodeGo_nil, decodeGo_nil]
    | succ fuel' =>
      cases htm : tryMarker cs with
      | none =>
        cases cs with
        | nil => rw [decodeGo_nil, decodeGo_nil]
        | cons c cs' =>
          simp only [decodeGo, htm]
          exact ih fuel' cs' (acc ++ [c]) (by simp at h; omega) (by simp at h'; omega)
      | some val =>
        obtain ⟨n, ds, rest⟩ := val
        have hl := tryMarker_length htm
        simp only [decodeGo, htm]
        rw [ih fuel' rest [] (by omega) (by omega)]

theorem linkedIndices_decodeGo_acc : ∀ (fuel : Nat) (cs acc acc' : List Char),
    linkedIndices (decodeGo fuel cs acc) = linkedIndices (decodeGo fuel cs acc') := by
  intro fuel
  induction fuel with
  | zero => intro cs acc acc'; simp [decodeGo, linkedIndices]
  | succ fuel ih =>
    intro cs acc acc'
    cases htm : tryMarker cs with
    | none =>
      cases cs with
      | nil => rw [decodeGo_nil, decodeGo_nil]; simp [linkedIndices]
      | cons c cs' =>
        simp only [decodeGo, htm]
        exact ih cs' (acc ++ [c]) (acc' ++ [c])
    | some val =>
      obtain ⟨n, ds, rest⟩ := val
      simp only [decodeGo, htm]
      simp [linkedIndices]

/-- A character list `t` is *skippable* when the decoder scans over it
without finding a marker, carrying it into the pending plain part whatever
follows.  All fragment text free of `'['` is skippable, and so are the
`[image:<n>]` / `[table:<n>]` resource ids (their second character is not
`'b'`, so they never parse as block markers). -/
def Skippable (t : List Char) : Prop :=
  ∀ (fuel f' : Nat) (acc cs : List Char), (t ++ cs).length ≤ fuel → cs.length ≤ f' →
    decodeGo fuel (t ++ cs) acc = decodeGo f' cs (acc ++ t)

theorem skippable_nil : Skippable [] := by
  intro fuel f' acc cs h h'
  simpa using decodeGo_stable fuel f' cs acc h h'

theorem skippable_cons {c : Char} (hc : c ≠ '[') {t : List Char} (ht : Skippable t) :
    Skippable (c :: t) := by
  intro fuel f' acc cs h h'
  cases fuel with
  | zero => simp at h
  | succ fuel =>
    have hstep : (c :: t) ++ cs = c :: (t ++ cs) := rfl
    rw [hstep]
    have htm := tryMarker_not_lbracket hc (t ++ cs)
    simp only [decodeGo, htm]
    rw [ht fuel f' (acc ++ [c]) cs (by simp at h ⊢; omega) h']
    simp

theorem skippable_lbracket {c : Char} (hc : c ≠ 'b') {t : List Char} (ht : Skippable (c :: t)) :
    Skippable ('[' :: c :: t) := by
  intro fuel f' acc cs h h'
  cases fuel with
  | zero => simp at h
  | succ fuel =>
    have hstep : ('[' :: c :: t) ++ cs = '[' :: c :: (t ++ cs) := by simp
    rw [hstep]
    have htm := tryMarker_lbracket_not_b hc (t ++ cs)
    simp only [decodeGo, htm]
    have hrec := ht fuel f' (acc ++ ['[']) cs (by simp at h ⊢; omega) h'
    rw [List.cons_append] at hrec
    rw [hrec]
    simp

theorem skippable_of_no_lbracket : ∀ {t : List Char}, (∀ c ∈ t, c ≠ '[') → Skippable t := by
  intro t
  induction t with
  | nil => intro _; exact skippable_nil
  | cons c t ih =>
    intro h
    exact skippable_cons (h c (List.mem_cons_self c t))
      (ih fun x hx => h x (List.mem_cons_of_mem c hx))

theorem skippable_append {a b : List Char} (ha : Skippable a) (hb : Skippable b) :
    Skippable (a ++ b) := by
  intro fuel f' acc cs h h'
  rw [List.append_assoc]
  rw [ha fuel ((b ++ cs).length) acc (b ++ cs) (by rw [List.append_assoc] at h; exact h) le_rfl]
  rw [hb (b ++ cs).length f' (acc ++ a) cs le_rfl h']
  rw [List.append_assoc]

theorem isDigit_ne_lbracket {c : Char} (h : c.isDigit = true) : c ≠ '[' := by
  intro he; subst he; exact absurd h (by decide)

theorem isDigit_ne_lbracket_of_mem {l : List Char} (h : ∀ c ∈ l, c.isDigit = true) :
    ∀ c ∈ l, c ≠ '[' := fun c hc => isDigit_ne_lbracket (h c hc)

theorem imageRef_data (n : Nat) :
    (imageRef n).data = '[' :: 'i' :: (['m', 'a', 'g', 'e', ':'] ++ (Nat.repr n).data ++ [']']) := by
  have h1 : ("[image:" : String).data = ['[', 'i', 'm', 'a', 'g', 'e', ':'] := rfl
  have h2 : ("]" : String).data = [']'] := rfl
  show ("[image:" ++ Nat.repr n ++ "]").data = _
  rw [String.data_append, String.data_append, h1, h2]
  simp

theorem tableRef_data (n : Nat) :
    (tableRef n).data = '[' :: 't' :: (['a', 'b', 'l', 'e', ':'] ++ (Nat.repr n).data ++ [']']) := by
  have h1 : ("[table:" : String).data = ['[', 't', 'a', 'b', 'l', 'e', ':'] := rfl
  have h2 : ("]" : String).data = [']'] := rfl
  show ("[table:" ++ Nat.repr n ++ "]").data = _
  rw [String.data_append, String.data_append, h1, h2]
  simp

theorem skippable_imageRef (n : Nat) : Skippable (imageRef n).data := by
  rw [imageRef_data]
  refine skippable_lbracket (by decide) ?_
  refine skippable_of_no_lbracket ?_
  intro c hc
  rcases List.mem_cons.1 hc with rfl | hc
  · decide
  · rcases List.mem_append.1 hc with hc | hc
    · rcases List.mem_append.1 hc with hc | hc
      · simp at hc
        rcases hc with rfl | rfl | rfl | rfl | rfl <;> decide
      · exact isDigit_ne_lbracket (mem_repr_isDigit n c hc)
    · simp at hc
      subst hc; decide

theorem skippable_tableRef (n : Nat) : Skippable (tableRef n).data := by
  rw [tableRef_data]
  refine skippable_lbracket (by decide) ?_
  refine skippable_of_no_lbracket ?_
  intro c hc
  rcases List.mem_cons.1 hc with rfl | hc
  · decide
  · rcases List.mem_append.1 hc with hc | hc
    · rcases List.mem_append.1 hc with hc | hc
      · simp at hc
        rcases hc with rfl | rfl | rfl | rfl | rfl <;> decide
      · exact isDigit_ne_lbracket (mem_repr_isDigit n c hc)
    · simp at hc
      subst hc; decide


theorem markerChars_length (ds : List Char) : (markerChars ds).length = ds.length + 8 := by
  simp [markerChars]

theorem blockRef_data_length (i : Nat) : 9 ≤ (blockRef i).data.length := by
  rw [blockRef_data, markerChars_length]
  have hd : 0 < (Nat.repr i).data.length := List.length_pos.2 (repr_data_ne_nil i)
  omega

theorem decodeGo_markerStep (i : Nat) (rest : List Char) (fuel f' : Nat) (acc : List Char)
    (hf : ((blockRef i).data ++ rest).length ≤ fuel) (hf' : rest.length ≤ f') :
    decodeGo fuel ((blockRef i).data ++ rest) acc =
      Span.plain (String.mk acc) :: Span.linked i (blockRef i) :: decodeGo f' rest [] := by
  have hlen : 9 + rest.length ≤ ((blockRef i).data ++ rest).length := by
    rw [List.length_append]
    have := blockRef_data_length i
    omega
  cases fuel with
  | zero => omega
  | succ g =>
    have htm : tryMarker ((blockRef i).data ++ rest) =
        some (natOfDigits (Nat.repr i).data, (Nat.repr i).data, rest) := by
      rw [blockRef_data]
      exact tryMarker_markerChars (repr_data_ne_nil i) (mem_repr_isDigit i) rest
    simp only [decodeGo, htm]
    have h1 : natOfDigits (Nat.repr i).data = i := natOfDigits_repr i
    have h2 : String.mk (markerChars (Nat.repr i).data) = blockRef i :=
      strExt (blockRef_data i).symm
    have h3 : decodeGo g rest [] = decodeGo f' rest [] :=
      decodeGo_stable g f' rest [] (by rw [List.length_append] at hf; have := blockRef_data_length i; omega) hf'
    rw [h1, h2, h3]

theorem markerIdx_nil : markerIdx [] = [] := rfl

theorem markerIdx_blockRef (i : Nat) (rest : List Char) :
    markerIdx ((blockRef i).data ++ rest) = i :: markerIdx rest := by
  unfold markerIdx decodeList
  rw [decodeGo_markerStep i rest _ rest.length [] le_rfl le_rfl]
  simp [linkedIndices]

theorem markerIdx_skip {t : List Char} (ht : Skippable t) (rest : List Char) :
    markerIdx (t ++ rest) = markerIdx rest := by
  unfold markerIdx decodeList
  rw [ht (t ++ rest).length rest.length [] rest le_rfl le_rfl]
  exact linkedIndices_decodeGo_acc rest.length rest ([] ++ t) []

theorem wrapRef_data (i : Nat) (t : String) :
    (wrapRef i t).data = (blockRef i).data ++ (t.data ++ (blockRef i).data) := by
  show ((blockRef i ++ t) ++ blockRef i).data = _
  rw [String.data_append, String.data_append]
  simp

theorem markerIdx_wrapRef (i : Nat) (t : String) (ht : Skippable t.data) (rest : List Char) :
    markerIdx ((wrapRef i t).data ++ rest) = i :: i :: markerIdx rest := by
  rw [wrapRef_data]
  have hsh : ((blockRef i).data ++ (t.data ++ (blockRef i).data)) ++ rest =
      (blockRef i).data ++ (t.data ++ ((blockRef i).data ++ rest)) := by simp
  rw [hsh, markerIdx_blockRef, markerIdx_skip ht, markerIdx_blockRef]

theorem markerIdx_wrapRef_nil (i : Nat) (t : String) (ht : Skippable t.data) :
    markerIdx (wrapRef i t).data = [i, i] := by
  have := markerIdx_wrapRef i t ht []
  simpa [markerIdx_nil] using this

theorem markerIdx_cons_none {c : Char} {cs : List Char} (h : tryMarker (c :: cs) = none) :
    markerIdx (c :: cs) = markerIdx cs := by
  unfold markerIdx decodeList
  have hl : (c :: cs).length = cs.length + 1 := rfl
  rw [hl]
  simp only [decodeGo, h]
  exact linkedIndices_decodeGo_acc cs.length cs ([] ++ [c]) []

theorem markerIdx_cons_some {cs : List Char} {n : Nat} {ds rest : List Char}
    (h : tryMarker cs = some (n, ds, rest)) :
    markerIdx cs = n :: markerIdx rest := by
  have hl := tryMarker_length h
  unfold markerIdx decodeList
  obtain ⟨g, hg⟩ : ∃ g, cs.length = g + 1 := ⟨cs.length - 1, by omega⟩
  rw [hg]
  simp only [decodeGo, h]
  rw [decodeGo_stable g rest.length rest [] (by omega) le_rfl]
  simp [linkedIndices]

theorem decodeGo_of_no_marker : ∀ (fuel : Nat) (cs acc : List Char), cs.length ≤ fuel →
    markerIdx cs = [] → decodeGo fuel cs acc = [Span.plain (String.mk (acc ++ cs))] := by
  intro fuel
  induction fuel with
  | zero =>
    intro cs acc h _
    have hcs : cs = [] := List.eq_nil_of_length_eq_zero (Nat.le_zero.1 h)
    subst hcs; rfl
  | succ fuel ih =>
    intro cs acc h hm
    cases htm : tryMarker cs with
    | some val =>
      obtain ⟨n, ds, rest⟩ := val
      rw [markerIdx_cons_some htm] at hm
      exact absurd hm (by simp)
    | none =>
      cases cs with
      | nil => rw [decodeGo_nil]; simp
      | cons c cs' =>
        simp only [decodeGo, htm]
        rw [ih cs' (acc ++ [c]) (by simp at h; omega) ((markerIdx_cons_none htm).symm.trans hm)]
        simp

theorem parseBlockLinks_no_marker (s : String) (h : markerIdx s.data = []) :
    parseBlockLinks s = [Span.plain s] := by
  unfold parseBlockLinks decodeList
  rw [decodeGo_of_no_marker s.data.length s.data [] le_rfl h]
  simp [mk_data]

theorem decode_wrapRef (i : Nat) (t : String) (ht : Skippable t.data) :
    parseBlockLinks (wrapRef i t) =
      [Span.plain "", Span.linked i (blockRef i), Span.plain t,
       Span.linked i (blockRef i), Span.plain ""] := by
  unfold parseBlockLinks decodeList
  have hsh : (wrapRef i t).data = (blockRef i).data ++ (t.data ++ ((blockRef i).data ++ [])) := by
    rw [wrapRef_data]; simp
  rw [hsh]
  rw [decodeGo_markerStep i _ _ ((t.data ++ ((blockRef i).data ++ [])).length) [] le_rfl le_rfl]
  rw [ht _ (((blockRef i).data ++ []).length) [] ((blockRef i).data ++ []) le_rfl le_rfl]
  rw [decodeGo_markerStep i [] _ 0 ([] ++ t.data) le_rfl le_rfl]
  rw [decodeGo_nil]
  simp [mk_data]


theorem eq_empty_of_data_eq_nil {s : String} (h : s.data = []) : s = "" := strExt h

theorem wrapRef_ne_empty (i : Nat) (t : String) : wrapRef i t ≠ "" := by
  intro h
  have hd := congrArg String.data h
  rw [wrapRef_data] at hd
  rw [show ("" : String).data = [] from rfl] at hd
  rcases List.append_eq_nil.1 hd with ⟨h1, _⟩
  have h9 := blockRef_data_length i
  rw [h1] at h9
  simp at h9

theorem spaceJoin_ne_empty {e : String} (he : e ≠ "") (l : List String) :
    spaceJoin (e :: l) ≠ "" := by
  cases l with
  | nil => simpa [spaceJoin] using he
  | cons x xs =>
    show e ++ " " ++ spaceJoin (x :: xs) ≠ ""
    intro h
    have hd := congrArg String.data h
    rw [String.data_append, String.data_append,
      show ("" : String).data = [] from rfl, show (" " : String).data = [' '] from rfl] at hd
    simp at hd

theorem skippable_space : Skippable [' '] :=
  skippable_of_no_lbracket (by intro c hc; simp at hc; subst hc; decide)

theorem markerIdx_spaceJoin :
    ∀ pairs : List (Nat × String),
      (∀ p ∈ pairs, ∃ t, p.2 = wrapRef p.1 t ∧ Skippable t.data) →
      markerIdx (spaceJoin (pairs.map Prod.snd)).data = pairs.flatMap (fun p => [p.1, p.1]) := by
  intro pairs
  induction pairs with
  | nil => intro _; simp [spaceJoin, List.map_nil]; rfl
  | cons p rest ih =>
    intro h
    obtain ⟨t, hpt, hsk⟩ := h p (List.mem_cons_self p rest)
    cases rest with
    | nil =>
      show markerIdx (spaceJoin [p.2]).data = _
      rw [show spaceJoin [p.2] = p.2 from rfl, hpt, markerIdx_wrapRef_nil p.1 t hsk]
      simp
    | cons q rest' =>
      show markerIdx (spaceJoin (p.2 :: q.2 :: rest'.map Prod.snd)).data = _
      rw [show spaceJoin (p.2 :: q.2 :: rest'.map Prod.snd) =
            p.2 ++ " " ++ spaceJoin (q.2 :: rest'.map Prod.snd) from rfl, hpt]
      have hdata : (wrapRef p.1 t ++ " " ++ spaceJoin (q.2 :: rest'.map Prod.snd)).data =
          (wrapRef p.1 t).data ++ (' ' :: (spaceJoin (q.2 :: rest'.map Prod.snd)).data) := by
        rw [String.data_append, String.data_append,
          show (" " : String).data = [' '] from rfl]
        simp
      rw [hdata, markerIdx_wrapRef p.1 t hsk]
      have hsp : markerIdx (' ' :: (spaceJoin (q.2 :: rest'.map Prod.snd)).data) =
          markerIdx (spaceJoin (q.2 :: rest'.map Prod.snd)).data :=
        markerIdx_skip skippable_space _
      rw [hsp]
      have hih := ih (fun x hx => h x (List.mem_cons_of_mem p hx))
      simp only [List.map_cons] at hih
      rw [hih]
      simp

theorem chain_le_flatMap_pair {l : List Nat} (h : l.Pairwise (· < ·)) :
    List.Chain' (· ≤ ·) (l.flatMap fun i => [i, i]) := by
  induction l with
  | nil => simp
  | cons i l ih =>
    rw [List.flatMap_cons]
    have hp := (List.pairwise_cons.1 h).1
    have ht := ih (List.pairwise_cons.1 h).2
    show List.Chain' (· ≤ ·) (i :: i :: l.flatMap fun j => [j, j])
    rw [List.chain'_cons]
    refine ⟨le_refl i, ?_⟩
    cases l with
    | nil => simp
    | cons j l' =>
      rw [List.flatMap_cons]
      rw [List.flatMap_cons] at ht
      simp only [List.cons_append, List.nil_append] at ht ⊢
      rw [List.chain'_cons]
      exact ⟨le_of_lt (hp j (List.mem_cons_self j l')), ht⟩


theorem processBlock_header_mapped (m : List (String × String)) (s : CompileState) (b : Block)
    {v : String} (hty : b.type = "Section header")
    (hv : dictGet m (pyStrip (b.text.getD "")) = some v)
    (hne : v ≠ "") (hnone : pyLower v ≠ "none") :
    processBlock m s b =
      { flushCurrentText s with
          current_section := pyLower v, current_section_block := blockRef s.pos,
          current_subsection := "subsection_1", current_subsection_block := "",
          pos := s.pos + 1 } := by
  simp [processBlock, hty, hv, hne, hnone]

theorem processBlock_header_other (m : List (String × String)) (s : CompileState) (b : Block)
    (hty : b.type = "Section header")
    (hmiss : dictGet m (pyStrip (b.text.getD "")) = none ∨
      ∃ v, dictGet m (pyStrip (b.text.getD "")) = some v ∧ (v = "" ∨ pyLower v = "none")) :
    processBlock m s b =
      { flushCurrentText s with
          current_subsection := pyStrip (b.text.getD ""),
          current_subsection_block := blockRef s.pos,
          pos := s.pos + 1 } := by
  rcases hmiss with h | ⟨v, hv, hvv⟩
  · simp [processBlock, hty, h]
  · have hcond : ¬(v ≠ "" ∧ pyLower v ≠ "none") := by
      rcases hvv with h1 | h1
      · intro hc; exact hc.1 h1
      · intro hc; exact hc.2 h1
    simp [processBlock, hty, hv, hcond]

theorem processBlock_caption_no_resource (m : List (String × String)) (s : CompileState)
    (b : Block) (hty : b.type = "Caption") (hres : s.resources = []) :
    processBlock m s b = processBlock m s { b with type := "Text" } := by
  simp [processBlock, hty, hres]

theorem processBlock_caption_described (m : List (String × String)) (s : CompileState)
    (b : Block) (hty : b.type = "Caption") {last : Resource}
    (hlast : s.resources.getLast? = some last) (hdesc : last.description ≠ "") :
    processBlock m s b = { s with pos := s.pos + 1 } := by
  simp [processBlock, hty, hlast, hdesc]

theorem processBlock_other_empty (m : List (String × String)) (s : CompileState) (b : Block)
    (hty1 : b.type ≠ "Section header") (hty2 : b.type ≠ "Picture") (hty3 : b.type ≠ "Table")
    (hty4 : b.type ≠ "Caption") (htext : pyStrip (b.text.getD "") = "") :
    processBlock m s b = { s with pos := s.pos + 1 } := by
  simp [processBlock, hty1, hty2, hty3, hty4, htext]

theorem processBlock_trim_congr (m : List (String × String)) (s : CompileState) (b b' : Block)
    (hty : b.type = b'.type) (htext : pyStrip (b.text.getD "") = pyStrip (b'.text.getD "")) :
    processBlock m s b = processBlock m s b' := by
  simp only [processBlock]
  rw [hty, htext]


theorem flush_resources (s : CompileState) : (flushCurrentText s).resources = s.resources := by
  unfold flushCurrentText; split <;> rfl

theorem flush_pos (s : CompileState) : (flushCurrentText s).pos = s.pos := by
  unfold flushCurrentText; split <;> rfl

theorem flush_image_counter (s : CompileState) :
    (flushCurrentText s).image_counter = s.image_counter := by
  unfold flushCurrentText; split <;> rfl

theorem flush_table_counter (s : CompileState) :
    (flushCurrentText s).table_counter = s.table_counter := by
  unfold flushCurrentText; split <;> rfl

theorem flush_current_section (s : CompileState) :
    (flushCurrentText s).current_section = s.current_section := by
  unfold flushCurrentText; split <;> rfl

theorem flush_current_section_block (s : CompileState) :
    (flushCurrentText s).current_section_block = s.current_section_block := by
  unfold flushCurrentText; split <;> rfl

theorem flush_current_subsection (s : CompileState) :
    (flushCurrentText s).current_subsection = s.current_subsection := by
  unfold flushCurrentText; split <;> rfl

theorem flush_current_subsection_block (s : CompileState) :
    (flushCurrentText s).current_subsection_block = s.current_subsection_block := by
  unfold flushCurrentText; split <;> rfl

theorem flush_buffer (s : CompileState) :
    (flushCurrentText s).current_text_buffer = [] ∨ flushCurrentText s = s := by
  unfold flushCurrentText
  split
  · right; rfl
  · left; rfl

theorem flush_buffer_empty (s : CompileState) :
    (flushCurrentText s).current_text_buffer = [] := by
  unfold flushCurrentText
  by_cases hb : s.current_text_buffer = []
  · rw [if_pos hb]
    exact hb
  · rw [if_neg hb]

theorem processBlock_pos (m : List (String × String)) (s : CompileState) (b : Block) :
    (processBlock m s b).pos = s.pos + 1 := rfl

theorem foldl_processBlock_pos (m : List (String × String)) :
    ∀ (l : List Block) (s : CompileState),
      (l.foldl (processBlock m) s).pos = s.pos + l.length := by
  intro l
  induction l with
  | nil => intro s; simp
  | cons b l ih =>
    intro s
    show (l.foldl (processBlock m) (processBlock m s b)).pos = s.pos + (b :: l).length
    rw [ih (processBlock m s b), processBlock_pos]
    simp
    omega

theorem processBlock_picture (m : List (String × String)) (s : CompileState) (b : Block)
    (hty : b.type = "Picture") :
    processBlock m s b =
      { s with
        resources := s.resources ++
          [{ reference := imageRef s.image_counter, content := pyStrip (b.text.getD ""),
             content_type := "image", description := "", content_block := s.pos,
             description_block := none }],
        current_text_buffer :=
          s.current_text_buffer ++ [wrapRef s.pos (imageRef s.image_counter)],
        image_counter := s.image_counter + 1,
        pos := s.pos + 1 } := by
  simp [processBlock, hty]

theorem processBlock_table (m : List (String × String)) (s : CompileState) (b : Block)
    (hty : b.type = "Table") :
    processBlock m s b =
      { s with
        resources := s.resources ++
          [{ reference := tableRef s.table_counter, content := pyStrip (b.text.getD ""),
             content_type := "table", description := "", content_block := s.pos,
             description_block := none }],
        current_text_buffer :=
          s.current_text_buffer ++ [wrapRef s.pos (tableRef s.table_counter)],
        table_counter := s.table_counter + 1,
        pos := s.pos + 1 } := by
  simp [processBlock, hty]

theorem processBlock_caption_claim (m : List (String × String)) (s : CompileState) (b : Block)
    {last : Resource} (hty : b.type = "Caption")
    (hlast : s.resources.getLast? = some last) (hdesc : last.description = "") :
    processBlock m s b =
      { s with
        resources := s.resources.dropLast ++
          [{ last with description := wrapRef s.pos (pyStrip (b.text.getD "")),
                       description_block := some s.pos }],
        pos := s.pos + 1 } := by
  simp [processBlock, hty, hlast, hdesc, wrapRef]

theorem processBlock_other_text (m : List (String × String)) (s : CompileState) (b : Block)
    (hty1 : b.type ≠ "Section header") (hty2 : b.type ≠ "Picture") (hty3 : b.type ≠ "Table")
    (hty4 : b.type ≠ "Caption") (htext : pyStrip (b.text.getD "") ≠ "") :
    processBlock m s b =
      { s with
        current_text_buffer :=
          s.current_text_buffer ++ [wrapRef s.pos (pyStrip (b.text.getD ""))],
        pos := s.pos + 1 } := by
  simp [processBlock, hty1, hty2, hty3, hty4, htext, wrapRef]

theorem decodeGo_ne_nil : ∀ (fuel : Nat) (cs acc : List Char), decodeGo fuel cs acc ≠ [] := by
  intro fuel
  induction fuel with
  | zero => intro cs acc; simp [decodeGo]
  | succ fuel ih =>
    intro cs acc
    cases htm : tryMarker cs with
    | some val =>
      obtain ⟨n, ds, rest⟩ := val
      simp [decodeGo, htm]
    | none =>
      cases cs with
      | nil => simp [decodeGo, htm]
      | cons c cs' =>
        simp only [decodeGo, htm]
        exact ih cs' (acc ++ [c])

theorem mem_of_mem_pyStrip {c : Char} {x : String} (h : c ∈ (pyStrip x).data) : c ∈ x.data := by
  unfold pyStrip at h
  rw [show (String.mk ((((x.data.dropWhile isWS).reverse.dropWhile isWS).reverse))).data =
      (((x.data.dropWhile isWS).reverse.dropWhile isWS).reverse) from rfl] at h
  have h1 := List.mem_reverse.1 h
  have h2 := (List.dropWhile_sublist isWS).mem h1
  have h3 := List.mem_reverse.1 h2
  exact (List.dropWhile_sublist isWS).mem h3


/-- C3 counterexample: the claim asserts that a Section-header fragment
whose trimmed text maps to a value that is not the `"none"` sentinel always
starts a new section.  With the mapping `{"X": ""}` the looked-up value `""`
is neither a miss nor the sentinel, yet Python truthiness sends it to the
subsection branch: the compiled entry keeps the default section and gets
subsection `"X"`, not section `"" `. -/
theorem sectionHeader_empty_mapping_cex :
    (compileParsedContent [⟨"Section header", some "X"⟩] [("X", "")]).content ≠
      [{ «section» := "", section_block := blockRef 0,
         subsection := "subsection_1", subsection_block := "", text := "" }] := by
  decide

/-- C3 (amended): processing a Section-header fragment whose trimmed
text maps to a *non-empty* value that is not the `"none"` sentinel first
flushes the buffer, sets `current_section` to the lower-cased mapped name
and `current_section_block` to this fragment's marker, and resets the
subsection state; the header's own text is never buffered.  The spec's
header-reset scenario compiles exactly as stated. -/
theorem sectionHeader_mapped_resets_section :
    (∀ (m : List (String × String)) (s : CompileState) (b : Block) (v : String),
      b.type = "Section header" →
      dictGet m (pyStrip (b.text.getD "")) = some v → v ≠ "" → pyLower v ≠ "none" →
      processBlock m s b =
        { flushCurrentText s with
            current_section := pyLower v, current_section_block := blockRef s.pos,
            current_subsection := "subsection_1", current_subsection_block := "",
            pos := s.pos + 1 }) ∧
    compileParsedContent [⟨"Section header", some "Intro"⟩, ⟨"Text", some "hello"⟩]
        [("Intro", "introduction")] =
      { content := [{ «section» := "introduction", section_block := blockRef 0,
                      subsection := "subsection_1", subsection_block := "",
                      text := wrapRef 1 "hello" }],
        resources := [] } :=
  ⟨fun m s b v hty hv hne hnone => processBlock_header_mapped m s b hty hv hne hnone, by decide⟩

/-- Witness for `sectionHeader_mapped_resets_section`: its hypotheses hold at
the concrete header `"Intro"` with mapping `{"Intro": "introduction"}`. -/
theorem sectionHeader_mapped_resets_section_witness :
    dictGet [("Intro", "introduction")]
        (pyStrip ((⟨"Section header", some "Intro"⟩ : Block).text.getD "")) =
      some "introduction" ∧
    processBlock [("Intro", "introduction")] initState ⟨"Section header", some "Intro"⟩ =
      { flushCurrentText initState with
          current_section := pyLower "introduction",
          current_section_block := blockRef initState.pos,
          current_subsection := "subsection_1", current_subsection_block := "",
          pos := initState.pos + 1 } :=
  ⟨by decide,
   sectionHeader_mapped_resets_section.1 [("Intro", "introduction")] initState
     ⟨"Section header", some "Intro"⟩ "introduction" rfl (by decide) (by decide) (by decide)⟩

/-- C4: processing a Section-header fragment whose trimmed text misses
the mapping or maps to the `"none"` sentinel flushes the buffer, makes the
trimmed header text the new `current_subsection` (verbatim, not
lower-cased), sets `current_subsection_block` to this fragment's marker,
and leaves the section state unchanged.  The spec's unmapped-header
scenario compiles exactly as stated. -/
theorem sectionHeader_unmapped_becomes_subsection :
    (∀ (m : List (String × String)) (s : CompileState) (b : Block),
      b.type = "Section header" →
      (dictGet m (pyStrip (b.text.getD "")) = none ∨
        ∃ v, dictGet m (pyStrip (b.text.getD "")) = some v ∧ pyLower v = "none") →
      processBlock m s b =
        { flushCurrentText s with
            current_subsection := pyStrip (b.text.getD ""),
            current_subsection_block := blockRef s.pos,
            pos := s.pos + 1 } ∧
      (processBlock m s b).current_section = s.current_section ∧
      (processBlock m s b).current_section_block = s.current_section_block) ∧
    compileParsedContent [⟨"Section header", some "Background"⟩] [] =
      { content := [{ «section» := "section_1", section_block := "",
                      subsection := "Background", subsection_block := blockRef 0,
                      text := "" }],
        resources := [] } := by
  constructor
  · intro m s b hty hmiss
    have heq := processBlock_header_other m s b hty
      (by rcases hmiss with h | ⟨v, hv, hvn⟩
          · exact Or.inl h
          · exact Or.inr ⟨v, hv, Or.inr hvn⟩)
    refine ⟨heq, ?_, ?_⟩
    · rw [heq]
      exact flush_current_section s
    · rw [heq]
      exact flush_current_section_block s
  · decide

/-- Witness for `sectionHeader_unmapped_becomes_subsection` at the header
`"Background"` and the empty mapping. -/
theorem sectionHeader_unmapped_becomes_subsection_witness :
    dictGet [] (pyStrip ((⟨"Section header", some "Background"⟩ : Block).text.getD "")) =
      none ∧
    processBlock [] initState ⟨"Section header", some "Background"⟩ =
      { flushCurrentText initState with
          current_subsection :=
            pyStrip ((⟨"Section header", some "Background"⟩ : Block).text.getD ""),
          current_subsection_block := blockRef initState.pos,
          pos := initState.pos + 1 } :=
  ⟨by decide,
   (sectionHeader_unmapped_becomes_subsection.1 [] initState
     ⟨"Section header", some "Background"⟩ rfl (Or.inl (by decide))).1⟩

/-- C5: compiling the empty fragment sequence never fails and yields
exactly one default content entry and no resources; and in general,
whenever the main loop plus final flush appended no content entry, the
post-pass appends exactly one entry carrying the final section/subsection
state and empty text. -/
theorem compile_empty_input_default_entry :
    (∀ m : List (String × String),
      compileParsedContent [] m =
        { content := [{ «section» := "section_1", section_block := "",
                        subsection := "subsection_1", subsection_block := "", text := "" }],
          resources := [] }) ∧
    (∀ (frags : List Block) (m : List (String × String)),
      (flushCurrentText (frags.foldl (processBlock m) initState)).content_sections = [] →
      compileParsedContent frags m =
        { content :=
            [{ «section» :=
                 (flushCurrentText (frags.foldl (processBlock m) initState)).current_section,
               section_block :=
                 (flushCurrentText (frags.foldl (processBlock m) initState)).current_section_block,
               subsection :=
                 (flushCurrentText (frags.foldl (processBlock m) initState)).current_subsection,
               subsection_block :=
                 (flushCurrentText
                   (frags.foldl (processBlock m) initState)).current_subsection_block,
               text := "" }],
          resources := (flushCurrentText (frags.foldl (processBlock m) initState)).resources }) := by
  constructor
  · intro m; rfl
  · intro frags m h
    simp only [compileParsedContent, h, if_true]

/-- Witness for `compile_empty_input_default_entry`: a lone header produces
no content entry, so the post-pass adds the single default entry. -/
theorem compile_empty_input_default_entry_witness :
    (flushCurrentText
        (([⟨"Section header", some "X"⟩] : List Block).foldl
          (processBlock []) initState)).content_sections = [] ∧
    compileParsedContent [⟨"Section header", some "X"⟩] [] =
      { content :=
          [{ «section» :=
               (flushCurrentText (([⟨"Section header", some "X"⟩] : List Block).foldl
                 (processBlock []) initState)).current_section,
             section_block :=
               (flushCurrentText (([⟨"Section header", some "X"⟩] : List Block).foldl
                 (processBlock []) initState)).current_section_block,
             subsection :=
               (flushCurrentText (([⟨"Section header", some "X"⟩] : List Block).foldl
                 (processBlock []) initState)).current_subsection,
             subsection_block :=
               (flushCurrentText (([⟨"Section header", some "X"⟩] : List Block).foldl
                 (processBlock []) initState)).current_subsection_block,
             text := "" }],
        resources :=
          (flushCurrentText (([⟨"Section header", some "X"⟩] : List Block).foldl
            (processBlock []) initState)).resources } :=
  ⟨by decide,
   compile_empty_input_default_entry.2 [⟨"Section header", some "X"⟩] [] (by decide)⟩

/-- C1 counterexample: the claim asserts that a caption arriving while
the most recent resource already has a description is treated as ordinary
flowing text.  In fact the code drops it silently: compiling
`[Picture "p", Caption "c1", Caption "c2"]` differs from compiling the same
sequence with the second caption replaced by a generic text fragment (the
latter appends `c2` to the flowing text, the former discards it). -/
theorem caption_described_resource_cex :
    compileParsedContent
        [⟨"Picture", some "p"⟩, ⟨"Caption", some "c1"⟩, ⟨"Caption", some "c2"⟩] [] ≠
      compileParsedContent
        [⟨"Picture", some "p"⟩, ⟨"Caption", some "c1"⟩, ⟨"Text", some "c2"⟩] [] := by
  decide

/-- C1 (amended): a caption processed while *no* resource exists is
byte-identical to a generic text fragment of the same text (the compiled
output of the whole sequence agrees), and it mutates no resource.  A
caption processed while the most recent resource already has a non-empty
description is *silently discarded*: the state is unchanged except for the
position counter (no resource mutation, and nothing is appended to the
text buffer). -/
theorem caption_no_resource_plain_text :
    (∀ (m : List (String × String)) (pre : List Block) (b : Block) (post : List Block),
      b.type = "Caption" →
      (pre.foldl (processBlock m) initState).resources = [] →
      compileParsedContent (pre ++ b :: post) m =
        compileParsedContent (pre ++ { b with type := "Text" } :: post) m) ∧
    (∀ (m : List (String × String)) (s : CompileState) (b : Block) (last : Resource),
      b.type = "Caption" → s.resources.getLast? = some last → last.description ≠ "" →
      processBlock m s b = { s with pos := s.pos + 1 }) := by
  constructor
  · intro m pre b post hty hres
    simp only [compileParsedContent]
    rw [List.foldl_append, List.foldl_append, List.foldl_cons, List.foldl_cons,
      processBlock_caption_no_resource m _ b hty hres]
  · intro m s b last hty hlast hdesc
    exact processBlock_caption_described m s b hty hlast hdesc


/-- Witness for `caption_no_resource_plain_text`: with no preceding
fragments the prefix state has no resources, and a described resource
makes the caption step a no-op. -/
theorem caption_no_resource_plain_text_witness :
    (([] : List Block).foldl (processBlock []) initState).resources = [] ∧
    compileParsedContent ([] ++ (⟨"Caption", some "hi"⟩ : Block) :: []) [] =
      compileParsedContent
        ([] ++ ({ (⟨"Caption", some "hi"⟩ : Block) with type := "Text" }) :: []) [] ∧
    processBlock [] { initState with resources := [⟨"[image:1]", "p", "image", "d", 0, some 1⟩] }
        ⟨"Caption", some "x"⟩ =
      { { initState with resources := [⟨"[image:1]", "p", "image", "d", 0, some 1⟩] } with
          pos := ({ initState with
            resources := [⟨"[image:1]", "p", "image", "d", 0, some 1⟩] } : CompileState).pos + 1 } :=
  ⟨by decide,
   caption_no_resource_plain_text.1 [] [] ⟨"Caption", some "hi"⟩ [] rfl (by decide),
   caption_no_resource_plain_text.2 []
     { initState with resources := [⟨"[image:1]", "p", "image", "d", 0, some 1⟩] }
     ⟨"Caption", some "x"⟩ ⟨"[image:1]", "p", "image", "d", 0, some 1⟩ rfl (by decide) (by decide)⟩

/-- C10 counterexample: the claim says a whitespace-only fragment of a
non-header, non-resource type contributes nothing to the output.  A
whitespace-only caption that finds a pending undescribed resource *does*
contribute: it claims the resource, setting its description to the bare
marker pair `[block:1][block:1]` and its `description_block` to 1, so the
output differs from the output without that fragment. -/
theorem whitespace_caption_claims_resource_cex :
    compileParsedContent [⟨"Picture", some "p"⟩, ⟨"Caption", some "   "⟩] [] ≠
      compileParsedContent [⟨"Picture", some "p"⟩] [] := by
  decide

/-- C10 (amended): every fragment's text is stripped of surrounding
whitespace before any use, and an absent text field is the empty string:
the step function depends only on the fragment's type and stripped text,
so a whitespace-only text behaves exactly like an empty one.  A fragment
with empty stripped text of a non-header, non-resource type contributes
nothing (beyond advancing the position) *unless* it is a caption arriving
while the most recent resource has an empty description — that caption
still claims the resource. -/
theorem fragment_text_stripped_before_use :
    (∀ (m : List (String × String)) (s : CompileState) (b b' : Block),
      b.type = b'.type → pyStrip (b.text.getD "") = pyStrip (b'.text.getD "") →
      processBlock m s b = processBlock m s b') ∧
    (∀ (m : List (String × String)) (s : CompileState) (b : Block),
      pyStrip (b.text.getD "") = "" →
      b.type ≠ "Section header" → b.type ≠ "Picture" → b.type ≠ "Table" →
      (b.type = "Caption" → s.resources = [] ∨
        ∃ last, s.resources.getLast? = some last ∧ last.description ≠ "") →
      processBlock m s b = { s with pos := s.pos + 1 }) := by
  constructor
  · intro m s b b' hty htext
    exact processBlock_trim_congr m s b b' hty htext
  · intro m s b htext h1 h2 h3 hcap
    by_cases h4 : b.type = "Caption"
    · rcases hcap h4 with hres | ⟨last, hlast, hdesc⟩
      · rw [processBlock_caption_no_resource m s b h4 hres]
        exact processBlock_other_empty m s _ (by simp) (by simp) (by simp) (by simp) htext
      · exact processBlock_caption_described m s b h4 hlast hdesc
    · exact processBlock_other_empty m s b h1 h2 h3 h4 htext

/-- Witness for `fragment_text_stripped_before_use`: a whitespace-only text
fragment equals its empty-text variant and is a no-op. -/
theorem fragment_text_stripped_before_use_witness :
    pyStrip ((⟨"Text", some "   "⟩ : Block).text.getD "") =
      pyStrip ((⟨"Text", some ""⟩ : Block).text.getD "") ∧
    processBlock [] initState ⟨"Text", some "   "⟩ = processBlock [] initState ⟨"Text", some ""⟩ ∧
    pyStrip ((⟨"List item", some " \t "⟩ : Block).text.getD "") = "" ∧
    processBlock [] initState ⟨"List item", some " \t "⟩ =
      { initState with pos := initState.pos + 1 } :=
  ⟨by decide,
   fragment_text_stripped_before_use.1 [] initState ⟨"Text", some "   "⟩ ⟨"Text", some ""⟩
     rfl (by decide),
   by decide,
   fragment_text_stripped_before_use.2 [] initState ⟨"List item", some " \t "⟩
     (by decide) (by decide) (by decide) (by decide) (by intro h; simp at h)⟩


theorem isDigit_not_ws {c : Char} (h : c.isDigit = true) : isWS c = false := by
  unfold isWS
  cases hw : c.isWhitespace with
  | false => rfl
  | true =>
    exfalso
    simp [Char.isWhitespace] at hw
    rcases hw with ((rfl | rfl) | rfl) | rfl <;> simp [Char.isDigit] at h

theorem isDigit_ne_of {c k : Char} (h : c.isDigit = true) (hk : k.isDigit = false) : c ≠ k := by
  intro he
  subst he
  rw [h] at hk
  exact absurd hk (by decide)

theorem contains_eq_false_of_not_mem {l : List Char} {c : Char} (h : c ∉ l) :
    l.contains c = false := by
  simpa using h

theorem dropWhile_eq_self {p : Char → Bool} :
    ∀ {l : List Char}, (∀ c ∈ l, p c = false) → l.dropWhile p = l := by
  intro l
  induction l with
  | nil => intro _; rfl
  | cons c l _ => intro h; simp [List.dropWhile_cons, h c (List.mem_cons_self c l)]

theorem digit_not_in_firstStrip {d : Char} (hd : d.isDigit = true) : d ∉ "[block:".data := by
  intro hm
  have : ("[block:".data) = ['[', 'b', 'l', 'o', 'c', 'k', ':'] := rfl
  rw [this] at hm
  simp at hm
  rcases hm with rfl | rfl | rfl | rfl | rfl | rfl | rfl <;> simp [Char.isDigit] at hd

theorem digit_not_in_secondStrip {d : Char} (hd : d.isDigit = true) : d ∉ "]".data := by
  intro hm
  have : ("]".data) = [']'] := rfl
  rw [this] at hm
  simp at hm
  subst hm
  simp [Char.isDigit] at hd

theorem pyStripChars_blockRef_first (k : Nat) :
    pyStripChars (blockRef k) "[block:".data = String.mk ((Nat.repr k).data ++ [']']) := by
  obtain ⟨d, ds', hds⟩ : ∃ d ds', (Nat.repr k).data = d :: ds' := by
    cases h : (Nat.repr k).data with
    | nil => exact absurd h (repr_data_ne_nil k)
    | cons d ds' => exact ⟨d, ds', rfl⟩
  have hdig : ∀ c ∈ d :: ds', c.isDigit = true := by rw [← hds]; exact mem_repr_isDigit k
  have hd : d.isDigit = true := hdig d (List.mem_cons_self d ds')
  have hshape : (blockRef k).data =
      ['[', 'b', 'l', 'o', 'c', 'k', ':'] ++ (d :: (ds' ++ [']'])) := by
    rw [blockRef_data, hds]
    simp [markerChars]
  have hp1head : (("[block:".data).contains d) = false :=
    contains_eq_false_of_not_mem (digit_not_in_firstStrip hd)
  have hall1 : ∀ c ∈ ['[', 'b', 'l', 'o', 'c', 'k', ':'],
      (("[block:".data).contains c) = true := by decide
  have hleft1 := (takeWhile_all_append hall1 hp1head (ds' ++ [']'])).2
  unfold pyStripChars
  rw [hshape, hleft1]
  have hrev1 : (d :: (ds' ++ [']'])).reverse = ']' :: (d :: ds').reverse := by
    have h0 : d :: (ds' ++ [']']) = (d :: ds') ++ [']'] := by simp
    rw [h0]
    simp
  rw [hrev1, List.dropWhile_cons]
  have hbr1 : (("[block:".data).contains ']') = false := by decide
  rw [hbr1]
  simp only [Bool.false_eq_true, if_false]
  rw [← hrev1, List.reverse_reverse, hds]
  simp

theorem pyStripChars_digits_bracket {ds : List Char} (hne : ds ≠ [])
    (hdig : ∀ c ∈ ds, c.isDigit = true) :
    pyStripChars (String.mk (ds ++ [']'])) "]".data = String.mk ds := by
  obtain ⟨d, ds', rfl⟩ : ∃ d ds', ds = d :: ds' := by
    cases ds with
    | nil => exact absurd rfl hne
    | cons d ds' => exact ⟨d, ds', rfl⟩
  have hd : d.isDigit = true := hdig d (List.mem_cons_self d ds')
  have hq1 : (("]".data).contains d) = false :=
    contains_eq_false_of_not_mem (digit_not_in_secondStrip hd)
  unfold pyStripChars
  have hmk : (String.mk ((d :: ds') ++ [']'])).data = (d :: ds') ++ [']'] := rfl
  rw [hmk]
  have hstep : ((d :: ds') ++ [']']).dropWhile (("]".data).contains ·) =
      (d :: ds') ++ [']'] := by
    have h0 : (d :: ds') ++ [']'] = d :: (ds' ++ [']']) := by simp
    rw [h0, List.dropWhile_cons, hq1]
    simp
  rw [hstep]
  have hrev : ((d :: ds') ++ [']']).reverse = ']' :: (d :: ds').reverse := by simp
  rw [hrev, List.dropWhile_cons]
  have hq2 : (("]".data).contains ']') = true := by decide
  rw [hq2]
  have hdrop : ((d :: ds').reverse).dropWhile (("]".data).contains ·) = (d :: ds').reverse := by
    refine dropWhile_eq_self ?_
    intro c hc
    exact contains_eq_false_of_not_mem
      (digit_not_in_secondStrip (hdig c (List.mem_reverse.1 hc)))
  rw [hdrop]
  simp

theorem pyStripChars_blockRef (k : Nat) :
    pyStripChars (pyStripChars (blockRef k) "[block:".data) "]".data = Nat.repr k := by
  rw [pyStripChars_blockRef_first k,
    pyStripChars_digits_bracket (repr_data_ne_nil k) (mem_repr_isDigit k)]

theorem pyIntOfString_digits {ds : List Char} (hne : ds ≠ [])
    (hdig : ∀ c ∈ ds, c.isDigit = true) :
    pyIntOfString (String.mk ds) = some ((natOfDigits ds : Nat) : Int) := by
  obtain ⟨d, ds', rfl⟩ : ∃ d ds', ds = d :: ds' := by
    cases ds with
    | nil => exact absurd rfl hne
    | cons d ds' => exact ⟨d, ds', rfl⟩
  have hd : d.isDigit = true := hdig d (List.mem_cons_self d ds')
  have hws1 : (d :: ds').dropWhile isWS = d :: ds' :=
    dropWhile_eq_self fun c hc => isDigit_not_ws (hdig c hc)
  have hws2 : ((d :: ds').reverse).dropWhile isWS = (d :: ds').reverse :=
    dropWhile_eq_self fun c hc => isDigit_not_ws (hdig c (List.mem_reverse.1 hc))
  unfold pyIntOfString
  have hmk : (String.mk (d :: ds')).data = d :: ds' := rfl
  rw [hmk, hws1, hws2, List.reverse_reverse]
  unfold pyIntAux
  have hneg : ¬((d :: ds').head? = some '-') := by
    simp only [List.head?_cons, Option.some.injEq]
    exact isDigit_ne_of hd (by decide)
  have hpos : ¬((d :: ds').head? = some '+') := by
    simp only [List.head?_cons, Option.some.injEq]
    exact isDigit_ne_of hd (by decide)
  rw [if_neg hneg, if_neg hpos]
  unfold pyIntDigits
  have hcond : ((d :: ds') ≠ [] ∧ (d :: ds').all Char.isDigit = true) := by
    refine ⟨by simp, ?_⟩
    rw [List.all_eq_true]
    intro c hc
    exact hdig c hc
  rw [if_pos hcond]
  simp

theorem blockRef_ne_empty (k : Nat) : blockRef k ≠ "" := by
  intro h
  have hd := congrArg String.data h
  rw [show ("" : String).data = [] from rfl] at hd
  have := blockRef_data_length k
  rw [hd] at this
  simp at this

/-- C9 counterexample: the claim says a raw-integer `content_block`
always yields that integer as the extracted index.  For the integer `0`
the Python truthiness guard `if content_block:` fails, so no index is
extracted at all (the resource gets no clickable link), rather than
index 0. -/
theorem resource_block_idx_zero_cex :
    parseResourceBlockIdx (ContentBlockVal.int 0) ≠ some 0 := by decide

/-- C9 (amended): for a *non-zero* raw integer the extracted index is
that integer; for a well-formed `[block:n]` reference string the extracted
index is `n`; for a non-empty string whose stripped form fails integer
conversion the parser falls back to index `0` without failing; the falsy
values — integer `0` and the empty string — produce no link at all. -/
theorem resource_block_idx_parsing :
    (∀ n : Int, n ≠ 0 → parseResourceBlockIdx (.int n) = some n) ∧
    (∀ k : Nat, parseResourceBlockIdx (.str (blockRef k)) = some (k : Int)) ∧
    (∀ s : String, s ≠ "" →
      pyIntOfString (pyStripChars (pyStripChars s "[block:".data) "]".data) = none →
      parseResourceBlockIdx (.str s) = some 0) ∧
    parseResourceBlockIdx (.int 0) = none ∧
    parseResourceBlockIdx (.str "") = none := by
  refine ⟨?_, ?_, ?_, by decide, by decide⟩
  · intro n hn
    simp [parseResourceBlockIdx, hn]
  · intro k
    simp only [parseResourceBlockIdx, if_neg (blockRef_ne_empty k)]
    simp only [Option.some.injEq]
    unfold strBlockIdx
    rw [pyStripChars_blockRef k,
      show Nat.repr k = String.mk (Nat.repr k).data from (mk_data _).symm,
      pyIntOfString_digits (repr_data_ne_nil k) (mem_repr_isDigit k), natOfDigits_repr]
  · intro s hs hfail
    simp only [parseResourceBlockIdx, if_neg hs]
    simp only [Option.some.injEq]
    unfold strBlockIdx
    rw [hfail]

/-- Witness for `resource_block_idx_parsing`: concrete values for each
hypothesis-bearing conjunct. -/
theorem resource_block_idx_parsing_witness :
    ((-3 : Int) ≠ 0 ∧ parseResourceBlockIdx (.int (-3)) = some (-3)) ∧
    parseResourceBlockIdx (.str (blockRef 12)) = some (12 : Int) ∧
    (("garbage" : String) ≠ "" ∧
      pyIntOfString (pyStripChars (pyStripChars "garbage" "[block:".data) "]".data) = none ∧
      parseResourceBlockIdx (.str "garbage") = some 0) :=
  ⟨⟨by decide, resource_block_idx_parsing.1 (-3) (by decide)⟩,
   resource_block_idx_parsing.2.1 12,
   ⟨by decide, by decide,
    resource_block_idx_parsing.2.2.1 "garbage" (by decide) (by decide)⟩⟩


/-- The counter/reference invariant maintained by the compile loop: each
per-type counter is one more than the number of resources of that type so
far, and the references of that type are `[image:1] .. [image:k]`
(resp. `[table:...]`) in encounter order. -/
def CounterInv (s : CompileState) : Prop :=
  s.image_counter = (s.resources.filter fun r => r.content_type = "image").length + 1 ∧
  s.table_counter = (s.resources.filter fun r => r.content_type = "table").length + 1 ∧
  ((s.resources.filter fun r => r.content_type = "image").map fun r => r.reference) =
    ((List.range (s.resources.filter fun r => r.content_type = "image").length).map
      fun n => imageRef (n + 1)) ∧
  ((s.resources.filter fun r => r.content_type = "table").map fun r => r.reference) =
    ((List.range (s.resources.filter fun r => r.content_type = "table").length).map
      fun n => tableRef (n + 1))

theorem counterInv_init : CounterInv initState := by
  refine ⟨rfl, rfl, rfl, rfl⟩

theorem counterInv_flush (s : CompileState) (h : CounterInv s) :
    CounterInv (flushCurrentText s) := by
  unfold CounterInv at h ⊢
  rw [flush_resources, flush_image_counter, flush_table_counter]
  exact h

theorem filter_map_ref_concat_same (init : List Resource) (last r' : Resource)
    (hct : r'.content_type = last.content_type) (href : r'.reference = last.reference)
    (ct : String) :
    (((init ++ [r']).filter fun r => r.content_type = ct).map fun r => r.reference) =
      (((init ++ [last]).filter fun r => r.content_type = ct).map fun r => r.reference) ∧
    ((init ++ [r']).filter fun r => r.content_type = ct).length =
      ((init ++ [last]).filter fun r => r.content_type = ct).length := by
  rw [List.filter_append, List.filter_append]
  by_cases hp : last.content_type = ct
  · have hp' : r'.content_type = ct := by rw [hct]; exact hp
    simp [List.filter_cons, hp, hp', href]
  · have hp' : ¬(r'.content_type = ct) := by rw [hct]; exact hp
    simp [List.filter_cons, hp, hp']

theorem counterInv_step (m : List (String × String)) (s : CompileState) (b : Block)
    (h : CounterInv s) : CounterInv (processBlock m s b) := by
  obtain ⟨hic, htc, him, htm⟩ := h
  by_cases h1 : b.type = "Section header"
  · rcases hmg : dictGet m (pyStrip (b.text.getD "")) with _ | v
    · rw [processBlock_header_other m s b h1 (Or.inl hmg)]
      exact counterInv_flush s ⟨hic, htc, him, htm⟩
    · by_cases hcond : v ≠ "" ∧ pyLower v ≠ "none"
      · rw [processBlock_header_mapped m s b h1 hmg hcond.1 hcond.2]
        exact counterInv_flush s ⟨hic, htc, him, htm⟩
      · have hvv : v = "" ∨ pyLower v = "none" := by
          by_cases hv1 : v = ""
          · exact Or.inl hv1
          · refine Or.inr ?_
            by_contra hv2
            exact hcond ⟨hv1, hv2⟩
        rw [processBlock_header_other m s b h1 (Or.inr ⟨v, hmg, hvv⟩)]
        exact counterInv_flush s ⟨hic, htc, him, htm⟩
  · by_cases h2 : b.type = "Picture"
    · rw [processBlock_picture m s b h2]
      refine ⟨?_, ?_, ?_, ?_⟩ <;>
        simp [List.filter_append, List.filter_cons, him, htm, hic, htc, List.range_succ,
          imageRef, tableRef]
    · by_cases h3 : b.type = "Table"
      · rw [processBlock_table m s b h3]
        refine ⟨?_, ?_, ?_, ?_⟩ <;>
          simp [List.filter_append, List.filter_cons, him, htm, hic, htc, List.range_succ,
            imageRef, tableRef]
      · by_cases h4 : b.type = "Caption"
        · cases hlast : s.resources.getLast? with
          | none =>
            have hres : s.resources = [] := List.getLast?_eq_none_iff.1 hlast
            rw [processBlock_caption_no_resource m s b h4 hres]
            by_cases h5 : pyStrip (b.text.getD "") = ""
            · rw [processBlock_other_empty m s { b with type := "Text" }
                (by simp) (by simp) (by simp) (by simp) h5]
              exact ⟨hic, htc, him, htm⟩
            · rw [processBlock_other_text m s { b with type := "Text" }
                (by simp) (by simp) (by simp) (by simp) h5]
              exact ⟨hic, htc, him, htm⟩
          | some last =>
            by_cases hdesc : last.description = ""
            · rw [processBlock_caption_claim m s b h4 hlast hdesc]
              obtain ⟨init, hrs⟩ := List.getLast?_eq_some_iff.1 hlast
              rw [hrs, List.dropLast_concat]
              have hconc := fun ct => filter_map_ref_concat_same init last
                { last with description := wrapRef s.pos (pyStrip (b.text.getD "")),
                            description_block := some s.pos } rfl rfl ct
              refine ⟨?_, ?_, ?_, ?_⟩
              · rw [(hconc "image").2, ← hrs]; exact hic
              · rw [(hconc "table").2, ← hrs]; exact htc
              · rw [(hconc "image").1, (hconc "image").2, ← hrs]; exact him
              · rw [(hconc "table").1, (hconc "table").2, ← hrs]; exact htm
            · rw [processBlock_caption_described m s b h4 hlast hdesc]
              exact ⟨hic, htc, him, htm⟩
        · by_cases h5 : pyStrip (b.text.getD "") = ""
          · rw [processBlock_other_empty m s b h1 h2 h3 h4 h5]
            exact ⟨hic, htc, him, htm⟩
          · rw [processBlock_other_text m s b h1 h2 h3 h4 h5]
            exact ⟨hic, htc, him, htm⟩

theorem counterInv_foldl (m : List (String × String)) :
    ∀ (l : List Block) (s : CompileState), CounterInv s →
      CounterInv (l.foldl (processBlock m) s) := by
  intro l
  induction l with
  | nil => intro s h; exact h
  | cons b l ih =>
    intro s h
    exact ih (processBlock m s b) (counterInv_step m s b h)

/-- C7: in every compiled output, the image resources' references are
exactly `[image:1] .. [image:k]` in encounter order (`k` the number of
image resources), the table resources' references are exactly
`[table:1] .. [table:k']`, the two counters are independent, and both
start at `1` in the initial state of every run. -/
theorem resource_reference_numbering (frags : List Block) (m : List (String × String)) :
    (((compileParsedContent frags m).resources.filter
        fun r => r.content_type = "image").map fun r => r.reference) =
      ((List.range ((compileParsedContent frags m).resources.filter
          fun r => r.content_type = "image").length).map fun n => imageRef (n + 1)) ∧
    (((compileParsedContent frags m).resources.filter
        fun r => r.content_type = "table").map fun r => r.reference) =
      ((List.range ((compileParsedContent frags m).resources.filter
          fun r => r.content_type = "table").length).map fun n => tableRef (n + 1)) ∧
    initState.image_counter = 1 ∧ initState.table_counter = 1 := by
  have h := counterInv_foldl m frags initState counterInv_init
  have hres : (compileParsedContent frags m).resources =
      (frags.foldl (processBlock m) initState).resources := by
    simp only [compileParsedContent]
    rw [flush_resources]
  rw [hres]
  exact ⟨h.2.2.1, h.2.2.2, rfl, rfl⟩


/-- C6: codec round trip: every span the compiler wraps has the form
`marker(i) ++ text ++ marker(i)` with the same marker on both sides; a
marker occurrence at any position decodes to exactly its fragment index
(each occurrence is a split point tagged with its index); decoding a
wrapped span whose interior contains no `'['` recovers exactly the
producing index at both markers; a string with no marker occurrence
decodes to a single plain span; and decoding is total and never returns an
empty span list. -/
theorem codec_round_trip :
    (∀ (i : Nat) (t : String), wrapRef i t = blockRef i ++ t ++ blockRef i) ∧
    (∀ (i : Nat) (rest : List Char),
      markerIdx ((blockRef i).data ++ rest) = i :: markerIdx rest) ∧
    (∀ (i : Nat) (t : String), (∀ c ∈ t.data, c ≠ '[') →
      parseBlockLinks (wrapRef i t) =
        [Span.plain "", Span.linked i (blockRef i), Span.plain t,
         Span.linked i (blockRef i), Span.plain ""] ∧
      markerIdx (wrapRef i t).data = [i, i]) ∧
    (∀ s : String, markerIdx s.data = [] → parseBlockLinks s = [Span.plain s]) ∧
    (∀ s : String, parseBlockLinks s ≠ []) := by
  refine ⟨?_, markerIdx_blockRef, ?_, parseBlockLinks_no_marker, ?_⟩
  · intro i t
    rfl
  · intro i t ht
    have hsk : Skippable t.data := skippable_of_no_lbracket ht
    exact ⟨decode_wrapRef i t hsk, markerIdx_wrapRef_nil i t hsk⟩
  · intro s
    unfold parseBlockLinks decodeList
    exact decodeGo_ne_nil _ _ _

/-- Witness for `codec_round_trip` at fragment index 7, interior `"hi"`,
and the marker-free string `"plain"`. -/
theorem codec_round_trip_witness :
    (∀ c ∈ ("hi" : String).data, c ≠ '[') ∧
    parseBlockLinks (wrapRef 7 "hi") =
      [Span.plain "", Span.linked 7 (blockRef 7), Span.plain "hi",
       Span.linked 7 (blockRef 7), Span.plain ""] ∧
    markerIdx (wrapRef 7 "hi").data = [7, 7] ∧
    (markerIdx ("plain" : String).data = [] ∧
      parseBlockLinks "plain" = [Span.plain "plain"]) :=
  ⟨by decide, (codec_round_trip.2.2.1 7 "hi" (by decide)).1,
   (codec_round_trip.2.2.1 7 "hi" (by decide)).2,
   ⟨by decide, codec_round_trip.2.2.2.1 "plain" (by decide)⟩⟩


/-- Every buffer element is a wrapped span `wrapRef i t` whose interior the
decoder scans over without finding a marker. -/
def GoodBuffer (pairs : List (Nat × String)) : Prop :=
  ∀ p ∈ pairs, ∃ t, p.2 = wrapRef p.1 t ∧ Skippable t.data

/-- The decoding invariant maintained by the compile loop: the indices
recoverable from the content entries so far are a duplicated-pair image of
some index list `ls`; the buffer consists of wrapped spans with indices
`pairs.map Prod.fst`; together these indices are a sublist of
`range s.pos` (hence follow input order); flushed entries are never
empty. -/
def BufferInv (s : CompileState) : Prop :=
  ∃ (ls : List Nat) (pairs : List (Nat × String)),
    (s.content_sections.map fun e => markerIdx e.text.data).flatten =
      ls.flatMap (fun i => [i, i]) ∧
    s.current_text_buffer = pairs.map Prod.snd ∧
    GoodBuffer pairs ∧
    List.Sublist (ls ++ pairs.map Prod.fst) (List.range s.pos) ∧
    (∀ e ∈ s.content_sections, e.text ≠ "")

theorem bufferInv_init : BufferInv initState :=
  ⟨[], [], rfl, rfl, fun p hp => absurd hp (List.not_mem_nil p),
   List.nil_sublist _, fun e he => absurd he (List.not_mem_nil e)⟩

theorem flatMap_pair_map_fst (pairs : List (Nat × String)) :
    (pairs.map Prod.fst).flatMap (fun i => [i, i]) = pairs.flatMap fun p => [p.1, p.1] := by
  induction pairs with
  | nil => rfl
  | cons p rest ih => simp [List.flatMap_cons, ih]

theorem content_flatten_append (cs : List ContentEntry) (e : ContentEntry) :
    ((cs ++ [e]).map fun x => markerIdx x.text.data).flatten =
      (cs.map fun x => markerIdx x.text.data).flatten ++ markerIdx e.text.data := by
  simp

theorem bufferInv_flush (s : CompileState) (h : BufferInv s) :
    BufferInv (flushCurrentText s) := by
  obtain ⟨ls, pairs, hflat, hbuf, hgood, hsub, hne⟩ := h
  unfold flushCurrentText
  by_cases hb : s.current_text_buffer = []
  · rw [if_pos hb]
    exact ⟨ls, pairs, hflat, hbuf, hgood, hsub, hne⟩
  · rw [if_neg hb]
    refine ⟨ls ++ pairs.map Prod.fst, [], ?_, ?_, ?_, ?_, ?_⟩
    · show ((s.content_sections ++
            ([⟨s.current_section, s.current_section_block, s.current_subsection,
               s.current_subsection_block, spaceJoin s.current_text_buffer⟩] :
              List ContentEntry)).map
          fun x => markerIdx x.text.data).flatten =
        (ls ++ pairs.map Prod.fst).flatMap fun i => [i, i]
      rw [content_flatten_append, hflat]
      show _ = (ls ++ pairs.map Prod.fst).flatMap fun i => [i, i]
      rw [List.flatMap_append, flatMap_pair_map_fst, hbuf,
        markerIdx_spaceJoin pairs hgood]
    · rfl
    · intro p hp
      exact absurd hp (List.not_mem_nil p)
    · simpa using hsub
    · intro e he
      rcases List.mem_append.1 he with he | he
      · exact hne e he
      · have he' : e = ⟨s.current_section, s.current_section_block, s.current_subsection,
            s.current_subsection_block, spaceJoin s.current_text_buffer⟩ := by
          simpa using he
        subst he'
        show spaceJoin s.current_text_buffer ≠ ""
        cases hp : pairs with
        | nil => rw [hbuf, hp] at hb; exact absurd rfl hb
        | cons p rest =>
          obtain ⟨t, hpt, -⟩ := hgood p (hp ▸ List.mem_cons_self p rest)
          rw [hbuf, hp]
          show spaceJoin (p.2 :: rest.map Prod.snd) ≠ ""
          exact spaceJoin_ne_empty (hpt ▸ wrapRef_ne_empty p.1 t) _


theorem sublist_range_extend {l : List Nat} {n : Nat} (h : List.Sublist l (List.range n)) :
    List.Sublist l (List.range (n + 1)) :=
  h.trans (List.range_sublist.2 (Nat.le_succ n))

theorem sublist_range_snoc {l : List Nat} {n : Nat} (h : List.Sublist l (List.range n)) :
    List.Sublist (l ++ [n]) (List.range (n + 1)) := by
  rw [List.range_succ]
  exact h.append (List.Sublist.refl [n])

theorem bufferInv_step (m : List (String × String)) (s : CompileState) (b : Block)
    (hb : ∀ c ∈ (b.text.getD "").data, c ≠ '[') (h : BufferInv s) :
    BufferInv (processBlock m s b) := by
  have hskip : Skippable (pyStrip (b.text.getD "")).data :=
    skippable_of_no_lbracket fun c hc => hb c (mem_of_mem_pyStrip hc)
  obtain ⟨ls0, pairs0, hflat0, hbuf0, hgood0, hsub0, hne0⟩ := h
  -- the common "append one wrapped span" construction
  have happend : ∀ (t : String), Skippable t.data →
      BufferInv { s with
        current_text_buffer := s.current_text_buffer ++ [wrapRef s.pos t],
        pos := s.pos + 1 } := by
    intro t ht
    refine ⟨ls0, pairs0 ++ [(s.pos, wrapRef s.pos t)], hflat0, ?_, ?_, ?_, hne0⟩
    · show s.current_text_buffer ++ [wrapRef s.pos t] = _
      rw [hbuf0, List.map_append]
      rfl
    · intro p hp
      rcases List.mem_append.1 hp with hp | hp
      · exact hgood0 p hp
      · have hp' : p = (s.pos, wrapRef s.pos t) := by simpa using hp
        subst hp'
        exact ⟨t, rfl, ht⟩
    · show List.Sublist (ls0 ++ (pairs0 ++ [(s.pos, wrapRef s.pos t)]).map Prod.fst)
        (List.range (s.pos + 1))
      rw [List.map_append, ← List.append_assoc]
      exact sublist_range_snoc hsub0
  have hnoop : ∀ rs : List Resource, BufferInv { s with resources := rs, pos := s.pos + 1 } :=
    fun rs => ⟨ls0, pairs0, hflat0, hbuf0, hgood0, sublist_range_extend hsub0, hne0⟩
  have hresource : ∀ (t : String), Skippable t.data → ∀ (rs : List Resource) (ic tc : Nat),
      BufferInv { s with
        resources := rs,
        current_text_buffer := s.current_text_buffer ++ [wrapRef s.pos t],
        image_counter := ic,
        table_counter := tc,
        pos := s.pos + 1 } := by
    intro t ht rs ic tc
    obtain ⟨ls1, pairs1, h1, h2, h3, h4, h5⟩ := happend t ht
    exact ⟨ls1, pairs1, h1, h2, h3, h4, h5⟩
  by_cases h1 : b.type = "Section header"
  · have hflushInv := bufferInv_flush s ⟨ls0, pairs0, hflat0, hbuf0, hgood0, hsub0, hne0⟩
    obtain ⟨ls1, pairs1, hflat1, hbuf1, hgood1, hsub1, hne1⟩ := hflushInv
    rw [flush_pos] at hsub1
    rcases hmg : dictGet m (pyStrip (b.text.getD "")) with _ | v
    · rw [processBlock_header_other m s b h1 (Or.inl hmg)]
      exact ⟨ls1, pairs1, hflat1, hbuf1, hgood1, sublist_range_extend hsub1, hne1⟩
    · by_cases hcond : v ≠ "" ∧ pyLower v ≠ "none"
      · rw [processBlock_header_mapped m s b h1 hmg hcond.1 hcond.2]
        exact ⟨ls1, pairs1, hflat1, hbuf1, hgood1, sublist_range_extend hsub1, hne1⟩
      · have hvv : v = "" ∨ pyLower v = "none" := by
          by_cases hv1 : v = ""
          · exact Or.inl hv1
          · refine Or.inr ?_
            by_contra hv2
            exact hcond ⟨hv1, hv2⟩
        rw [processBlock_header_other m s b h1 (Or.inr ⟨v, hmg, hvv⟩)]
        exact ⟨ls1, pairs1, hflat1, hbuf1, hgood1, sublist_range_extend hsub1, hne1⟩
  · by_cases h2 : b.type = "Picture"
    · rw [processBlock_picture m s b h2]
      exact hresource (imageRef s.image_counter) (skippable_imageRef s.image_counter)
        (s.resources ++ [⟨imageRef s.image_counter, pyStrip (b.text.getD ""), "image", "",
          s.pos, none⟩]) (s.image_counter + 1) s.table_counter
    · by_cases h3 : b.type = "Table"
      · rw [processBlock_table m s b h3]
        exact hresource (tableRef s.table_counter) (skippable_tableRef s.table_counter)
          (s.resources ++ [⟨tableRef s.table_counter, pyStrip (b.text.getD ""), "table", "",
            s.pos, none⟩]) s.image_counter (s.table_counter + 1)
      · by_cases h4 : b.type = "Caption"
        · cases hlast : s.resources.getLast? with
          | none =>
            have hres : s.resources = [] := List.getLast?_eq_none_iff.1 hlast
            rw [processBlock_caption_no_resource m s b h4 hres]
            by_cases h5 : pyStrip (b.text.getD "") = ""
            · rw [processBlock_other_empty m s { b with type := "Text" }
                (by simp) (by simp) (by simp) (by simp) h5]
              exact hnoop s.resources
            · rw [processBlock_other_text m s { b with type := "Text" }
                (by simp) (by simp) (by simp) (by simp) h5]
              exact happend (pyStrip (b.text.getD "")) hskip
          | some last =>
            by_cases hdesc : last.description = ""
            · rw [processBlock_caption_claim m s b h4 hlast hdesc]
              exact hnoop _
            · rw [processBlock_caption_described m s b h4 hlast hdesc]
              exact hnoop s.resources
        · by_cases h5 : pyStrip (b.text.getD "") = ""
          · rw [processBlock_other_empty m s b h1 h2 h3 h4 h5]
            exact hnoop s.resources
          · rw [processBlock_other_text m s b h1 h2 h3 h4 h5]
            exact happend (pyStrip (b.text.getD "")) hskip

theorem bufferInv_foldl (m : List (String × String)) :
    ∀ (l : List Block) (s : CompileState),
      (∀ b ∈ l, ∀ c ∈ (b.text.getD "").data, c ≠ '[') → BufferInv s →
      BufferInv (l.foldl (processBlock m) s) := by
  intro l
  induction l with
  | nil => intro s _ h; exact h
  | cons b l ih =>
    intro s hl h
    exact ih (processBlock m s b)
      (fun x hx => hl x (List.mem_cons_of_mem b hx))
      (bufferInv_step m s b (hl b (List.mem_cons_self b l)) h)


/-- C8 counterexample: the claim quantifies over *every* fragment
sequence, but markers are not escaped in ordinary text: a text fragment
whose own text contains the literal `[block:9]` injects a spurious marker,
and the decoded index sequence of the compiled content is `[0, 9, 0, 1, 1]`
— not non-decreasing. -/
theorem ordering_preservation_cex :
    ¬ List.Chain' (· ≤ ·) (contentIndices (compileParsedContent
      [⟨"Text", some "[block:9]"⟩, ⟨"Text", some "x"⟩] [])) := by
  have h : contentIndices (compileParsedContent
      [⟨"Text", some "[block:9]"⟩, ⟨"Text", some "x"⟩] []) = [0, 9, 0, 1, 1] := by decide
  rw [h]
  intro hch
  rcases List.chain'_cons.1 (List.chain'_cons.1 hch).2 with ⟨h90, -⟩
  omega

/-- C8 (amended): for every fragment sequence in which no fragment's
text contains the character `'['` (so no fragment text can collide with a
marker), the fragment indices recoverable via the codec from the content
entries' text, taken across all entries in output order, form the
duplicated image (each index appears twice, for the opening and closing
marker) of a sublist of `0 .. n-1` — hence they are non-decreasing and
follow the relative input order of the fragments that contributed them.
Moreover a content entry with empty text only arises as the single default
entry of an otherwise empty content list (entries are appended only by
flushing a non-empty buffer, never mid-buffer). -/
theorem ordering_preservation (frags : List Block) (m : List (String × String))
    (h : ∀ b ∈ frags, ∀ c ∈ (b.text.getD "").data, c ≠ '[') :
    ∃ l, List.Sublist l (List.range frags.length) ∧
      contentIndices (compileParsedContent frags m) = l.flatMap (fun i => [i, i]) ∧
      List.Chain' (· ≤ ·) (contentIndices (compileParsedContent frags m)) ∧
      (∀ e ∈ (compileParsedContent frags m).content, e.text = "" →
        (compileParsedContent frags m).content = [e]) := by
  have hinv := bufferInv_flush _ (bufferInv_foldl m frags initState h bufferInv_init)
  obtain ⟨ls, pairs, hflat, hbuf, hgood, hsub, hne⟩ := hinv
  have hpos : (flushCurrentText (frags.foldl (processBlock m) initState)).pos =
      frags.length := by
    rw [flush_pos, foldl_processBlock_pos]
    simp [initState]
  rw [hpos] at hsub
  have hpairs : pairs = [] := by
    cases hp : pairs with
    | nil => rfl
    | cons p rest =>
      rw [flush_buffer_empty, hp] at hbuf
      exact absurd hbuf (by simp)
  subst hpairs
  simp only [List.map_nil, List.append_nil] at hsub hbuf
  by_cases hcs : (flushCurrentText (frags.foldl (processBlock m) initState)).content_sections
      = []
  · refine ⟨[], List.nil_sublist _, ?_, ?_, ?_⟩
    · show contentIndices (compileParsedContent frags m) = []
      unfold contentIndices
      simp only [compileParsedContent, hcs, if_true]
      simp [markerIdx_nil]
    · unfold contentIndices
      simp only [compileParsedContent, hcs, if_true]
      simp [markerIdx_nil]
    · intro e he _
      simp only [compileParsedContent, hcs, if_true] at he ⊢
      simp at he
      subst he
      rfl
  · have hcontent : (compileParsedContent frags m).content =
        (flushCurrentText (frags.foldl (processBlock m) initState)).content_sections := by
      simp only [compileParsedContent]
      rw [if_neg hcs]
    refine ⟨ls, hsub, ?_, ?_, ?_⟩
    · unfold contentIndices
      rw [hcontent]
      exact hflat
    · unfold contentIndices
      rw [hcontent, hflat]
      exact chain_le_flatMap_pair (List.Pairwise.sublist hsub (List.pairwise_lt_range _))
    · intro e he htext
      rw [hcontent] at he
      exact absurd htext (hne e he)

/-- Witness for `ordering_preservation` on a run with a header boundary and
marker-free texts. -/
theorem ordering_preservation_witness :
    (∀ b ∈ ([⟨"Text", some "a"⟩, ⟨"Section header", some "Intro"⟩, ⟨"Text", some "bc"⟩] :
        List Block), ∀ c ∈ (b.text.getD "").data, c ≠ '[') ∧
    ∃ l, List.Sublist l (List.range 3) ∧
      contentIndices (compileParsedContent
        [⟨"Text", some "a"⟩, ⟨"Section header", some "Intro"⟩, ⟨"Text", some "bc"⟩] []) =
        l.flatMap (fun i => [i, i]) ∧
      List.Chain' (· ≤ ·) (contentIndices (compileParsedContent
        [⟨"Text", some "a"⟩, ⟨"Section header", some "Intro"⟩, ⟨"Text", some "bc"⟩] [])) ∧
      (∀ e ∈ (compileParsedContent
          [⟨"Text", some "a"⟩, ⟨"Section header", some "Intro"⟩, ⟨"Text", some "bc"⟩]
          []).content, e.text = "" →
        (compileParsedContent
          [⟨"Text", some "a"⟩, ⟨"Section header", some "Intro"⟩, ⟨"Text", some "bc"⟩]
          []).content = [e]) :=
  ⟨by decide,
   ordering_preservation
     [⟨"Text", some "a"⟩, ⟨"Section header", some "Intro"⟩, ⟨"Text", some "bc"⟩] []
     (by decide)⟩


theorem getElem?_some_lt {l : List Block} {k : Nat} {b : Block} (h : l[k]? = some b) :
    k < l.length := by
  by_contra hk
  rw [List.getElem?_eq_none (Nat.le_of_not_lt hk)] at h
  exact absurd h (by simp)

/-- The resource/caption invariant maintained by the compile loop.  For a
state that has processed the first `s.pos` fragments of `frags`:
resources point at resource-typed fragments before `s.pos`, in strictly
increasing fragment order, and cover all resource fragments seen;
a description is empty exactly when no caption claimed it; a claimed
description records the first caption after the resource with no
intervening resource or caption; an unclaimed resource has no caption
after it without an intervening resource. -/
def ResourceInv (frags : List Block) (s : CompileState) : Prop :=
  s.pos ≤ frags.length ∧
  (∀ r ∈ s.resources, r.content_block < s.pos ∧
    ∃ fb, frags[r.content_block]? = some fb ∧ (fb.type = "Picture" ∨ fb.type = "Table")) ∧
  List.Pairwise (· < ·) (s.resources.map fun r => r.content_block) ∧
  (∀ k fb, k < s.pos → frags[k]? = some fb → (fb.type = "Picture" ∨ fb.type = "Table") →
    ∃ r ∈ s.resources, r.content_block = k) ∧
  (∀ r ∈ s.resources, (r.description = "" ↔ r.description_block = none)) ∧
  (∀ r ∈ s.resources, ∀ j, r.description_block = some j →
    j < s.pos ∧ r.content_block < j ∧
    (∃ fb, frags[j]? = some fb ∧ fb.type = "Caption" ∧
      r.description = wrapRef j (pyStrip (fb.text.getD ""))) ∧
    (∀ k fb, r.content_block < k → k < j → frags[k]? = some fb →
      fb.type ≠ "Picture" ∧ fb.type ≠ "Table" ∧ fb.type ≠ "Caption")) ∧
  (∀ r ∈ s.resources, r.description_block = none →
    ∀ k fb, r.content_block < k → k < s.pos → frags[k]? = some fb → fb.type = "Caption" →
      ∃ k' fb', r.content_block < k' ∧ k' < k ∧ frags[k']? = some fb' ∧
        (fb'.type = "Picture" ∨ fb'.type = "Table"))

theorem resourceInv_init (frags : List Block) : ResourceInv frags initState := by
  refine ⟨Nat.zero_le _, ?_, ?_, ?_, ?_, ?_, ?_⟩
  · intro r hr; exact absurd hr (List.not_mem_nil r)
  · exact List.Pairwise.nil
  · intro k fb hk _ _; exact absurd hk (Nat.not_lt_zero k)
  · intro r hr; exact absurd hr (List.not_mem_nil r)
  · intro r hr; exact absurd hr (List.not_mem_nil r)
  · intro r hr; exact absurd hr (List.not_mem_nil r)

theorem mem_init_lt_last {init : List Resource} {last : Resource}
    (hmono : List.Pairwise (· < ·) ((init ++ [last]).map fun r => r.content_block))
    {r : Resource} (hr : r ∈ init) : r.content_block < last.content_block := by
  rw [List.map_append] at hmono
  exact (List.pairwise_append.1 hmono).2.2 r.content_block
    (List.mem_map_of_mem _ hr) last.content_block (by simp)

theorem mem_le_last {init : List Resource} {last : Resource}
    (hmono : List.Pairwise (· < ·) ((init ++ [last]).map fun r => r.content_block))
    {r : Resource} (hr : r ∈ init ++ [last]) :
    r.content_block ≤ last.content_block := by
  rcases List.mem_append.1 hr with hr | hr
  · exact Nat.le_of_lt (mem_init_lt_last hmono hr)
  · have : r = last := by simpa using hr
    subst this
    exact Nat.le_refl _


theorem resourceInv_noop (frags : List Block) (s : CompileState) (b : Block)
    (hcur : frags[s.pos]? = some b)
    (hnp : b.type ≠ "Picture") (hnt : b.type ≠ "Table") (hnc : b.type ≠ "Caption")
    (h : ResourceInv frags s) (s' : CompileState)
    (hres : s'.resources = s.resources) (hpos : s'.pos = s.pos + 1) :
    ResourceInv frags s' := by
  obtain ⟨hlen, hcb, hmono, hcover, hiff, hsome, hnone⟩ := h
  have hposlt : s.pos < frags.length := getElem?_some_lt hcur
  rw [ResourceInv, hres, hpos]
  refine ⟨hposlt, ?_, hmono, ?_, hiff, ?_, ?_⟩
  · intro r hr
    obtain ⟨h1, h2⟩ := hcb r hr
    exact ⟨Nat.lt_succ_of_lt h1, h2⟩
  · intro k fb hk hget hty
    rcases Nat.lt_succ_iff_lt_or_eq.1 hk with hk | rfl
    · exact hcover k fb hk hget hty
    · rw [hcur] at hget
      have hfb : b = fb := Option.some.inj hget
      subst hfb
      rcases hty with hty | hty
      · exact absurd hty hnp
      · exact absurd hty hnt
  · intro r hr j hj
    obtain ⟨h1, h2, h3, h4⟩ := hsome r hr j hj
    exact ⟨Nat.lt_succ_of_lt h1, h2, h3, h4⟩
  · intro r hr hrnone k fb hk1 hk2 hget hcap
    rcases Nat.lt_succ_iff_lt_or_eq.1 hk2 with hk2 | rfl
    · exact hnone r hr hrnone k fb hk1 hk2 hget hcap
    · rw [hcur] at hget
      have hfb : b = fb := Option.some.inj hget
      subst hfb
      exact absurd hcap hnc

theorem resourceInv_caption_noop (frags : List Block) (s : CompileState) (b : Block)
    (hcur : frags[s.pos]? = some b) (hty : b.type = "Caption")
    (hcase : s.resources = [] ∨
      ∃ last, s.resources.getLast? = some last ∧ last.description ≠ "")
    (h : ResourceInv frags s) (s' : CompileState)
    (hres : s'.resources = s.resources) (hpos : s'.pos = s.pos + 1) :
    ResourceInv frags s' := by
  obtain ⟨hlen, hcb, hmono, hcover, hiff, hsome, hnone⟩ := h
  have hposlt : s.pos < frags.length := getElem?_some_lt hcur
  rw [ResourceInv, hres, hpos]
  refine ⟨hposlt, ?_, hmono, ?_, hiff, ?_, ?_⟩
  · intro r hr
    obtain ⟨h1, h2⟩ := hcb r hr
    exact ⟨Nat.lt_succ_of_lt h1, h2⟩
  · intro k fb hk hget htyp
    rcases Nat.lt_succ_iff_lt_or_eq.1 hk with hk | rfl
    · exact hcover k fb hk hget htyp
    · rw [hcur] at hget
      have hfb : b = fb := Option.some.inj hget
      subst hfb
      rw [hty] at htyp
      rcases htyp with htyp | htyp <;> exact absurd htyp (by decide)
  · intro r hr j hj
    obtain ⟨h1, h2, h3, h4⟩ := hsome r hr j hj
    exact ⟨Nat.lt_succ_of_lt h1, h2, h3, h4⟩
  · intro r hr hrnone k fb hk1 hk2 hget hcap
    rcases Nat.lt_succ_iff_lt_or_eq.1 hk2 with hk2 | rfl
    · exact hnone r hr hrnone k fb hk1 hk2 hget hcap
    · rcases hcase with hcase | ⟨last, hlast, hldesc⟩
      · rw [hcase] at hr
        exact absurd hr (List.not_mem_nil r)
      · obtain ⟨init, hrs⟩ := List.getLast?_eq_some_iff.1 hlast
        have hrinit : r ∈ init := by
          rcases List.mem_append.1 (hrs ▸ hr) with h' | h'
          · exact h'
          · exfalso
            have hrl : r = last := by simpa using h'
            subst hrl
            have := (hiff r hr).2 ?_
            · exact hldesc this
            · exact hrnone
        have hlastmem : last ∈ s.resources := by
          rw [hrs]
          exact List.mem_append.2 (Or.inr (by simp))
        obtain ⟨hlt, fb', hget', hty'⟩ := hcb last hlastmem
        refine ⟨last.content_block, fb', ?_, hlt, hget', hty'⟩
        exact mem_init_lt_last (hrs ▸ hmono) hrinit


theorem resourceInv_resource_step (frags : List Block) (s : CompileState) (b : Block)
    (hcur : frags[s.pos]? = some b) (hty : b.type = "Picture" ∨ b.type = "Table")
    (h : ResourceInv frags s) (e : Resource) (hcbe : e.content_block = s.pos)
    (hde : e.description = "") (hdbe : e.description_block = none)
    (s' : CompileState) (hres : s'.resources = s.resources ++ [e])
    (hpos : s'.pos = s.pos + 1) : ResourceInv frags s' := by
  obtain ⟨hlen, hcb, hmono, hcover, hiff, hsome, hnone⟩ := h
  have hposlt : s.pos < frags.length := getElem?_some_lt hcur
  rw [ResourceInv, hres, hpos]
  refine ⟨hposlt, ?_, ?_, ?_, ?_, ?_, ?_⟩
  · intro r hr
    rcases List.mem_append.1 hr with hr | hr
    · obtain ⟨h1, h2⟩ := hcb r hr
      exact ⟨Nat.lt_succ_of_lt h1, h2⟩
    · have hre : r = e := by simpa using hr
      subst hre
      rw [hcbe]
      exact ⟨Nat.lt_succ_self _, b, hcur, hty⟩
  · rw [List.map_append]
    refine List.pairwise_append.2 ⟨hmono, by simp, ?_⟩
    intro x hx y hy
    have hye : y = e.content_block := by simpa using hy
    obtain ⟨r, hr, hrx⟩ := List.mem_map.1 hx
    subst hye
    rw [hcbe, ← hrx]
    exact (hcb r hr).1
  · intro k fb hk hget htyp
    rcases Nat.lt_succ_iff_lt_or_eq.1 hk with hk | rfl
    · obtain ⟨r, hr, hrk⟩ := hcover k fb hk hget htyp
      exact ⟨r, List.mem_append.2 (Or.inl hr), hrk⟩
    · exact ⟨e, List.mem_append.2 (Or.inr (by simp)), hcbe⟩
  · intro r hr
    rcases List.mem_append.1 hr with hr | hr
    · exact hiff r hr
    · have hre : r = e := by simpa using hr
      subst hre
      rw [hde, hdbe]
      simp
  · intro r hr j hj
    rcases List.mem_append.1 hr with hr | hr
    · obtain ⟨h1, h2, h3, h4⟩ := hsome r hr j hj
      exact ⟨Nat.lt_succ_of_lt h1, h2, h3, h4⟩
    · have hre : r = e := by simpa using hr
      subst hre
      rw [hdbe] at hj
      exact absurd hj (by simp)
  · intro r hr hrnone k fb hk1 hk2 hget hcap
    rcases List.mem_append.1 hr with hr | hr
    · rcases Nat.lt_succ_iff_lt_or_eq.1 hk2 with hk2 | rfl
      · exact hnone r hr hrnone k fb hk1 hk2 hget hcap
      · rw [hcur] at hget
        have hfb : b = fb := Option.some.inj hget
        subst hfb
        rcases hty with hty | hty <;> (rw [hty] at hcap; exact absurd hcap (by decide))
    · have hre : r = e := by simpa using hr
      subst hre
      rw [hcbe] at hk1
      omega
  
theorem resourceInv_claim_step (frags : List Block) (s : CompileState) (b : Block)
    (hcur : frags[s.pos]? = some b) (hty : b.type = "Caption") {last : Resource}
    (hlast : s.resources.getLast? = some last) (hdesc : last.description = "")
    (h : ResourceInv frags s) (s' : CompileState)
    (hres : s'.resources = s.resources.dropLast ++
      [{ last with description := wrapRef s.pos (pyStrip (b.text.getD "")),
                   description_block := some s.pos }])
    (hpos : s'.pos = s.pos + 1) : ResourceInv frags s' := by
  obtain ⟨hlen, hcb, hmono, hcover, hiff, hsome, hnone⟩ := h
  have hposlt : s.pos < frags.length := getElem?_some_lt hcur
  obtain ⟨init, hrs⟩ := List.getLast?_eq_some_iff.1 hlast
  rw [hrs, List.dropLast_concat] at hres
  have hlastmem : last ∈ s.resources := by
    rw [hrs]
    exact List.mem_append.2 (Or.inr (by simp))
  obtain ⟨hlastlt, lfb, hlget, hlty⟩ := hcb last hlastmem
  have hlastnone : last.description_block = none := (hiff last hlastmem).1 hdesc
  have hle : ∀ r'' ∈ s.resources, r''.content_block ≤ last.content_block := by
    intro r'' hr''
    exact mem_le_last (hrs ▸ hmono) (hrs ▸ hr'')
  have hnocross : ∀ k fb, last.content_block < k → k < s.pos → frags[k]? = some fb →
      fb.type ≠ "Picture" ∧ fb.type ≠ "Table" ∧ fb.type ≠ "Caption" := by
    intro k fb hk1 hk2 hget
    refine ⟨?_, ?_, ?_⟩
    · intro htyp
      obtain ⟨r'', hr'', hrk⟩ := hcover k fb hk2 hget (Or.inl htyp)
      have := hle r'' hr''
      omega
    · intro htyp
      obtain ⟨r'', hr'', hrk⟩ := hcover k fb hk2 hget (Or.inr htyp)
      have := hle r'' hr''
      omega
    · intro htyp
      obtain ⟨k', fb', hlt1, hlt2, hget', hty'⟩ :=
        hnone last hlastmem hlastnone k fb hk1 hk2 hget htyp
      obtain ⟨r'', hr'', hrk⟩ := hcover k' fb' (Nat.lt_trans hlt2 hk2) hget' hty'
      have := hle r'' hr''
      omega
  rw [ResourceInv, hres, hpos]
  refine ⟨hposlt, ?_, ?_, ?_, ?_, ?_, ?_⟩
  · intro r hr
    rcases List.mem_append.1 hr with hr | hr
    · obtain ⟨h1, h2⟩ := hcb r (hrs ▸ List.mem_append.2 (Or.inl hr))
      exact ⟨Nat.lt_succ_of_lt h1, h2⟩
    · rw [List.mem_singleton] at hr
      subst hr
      exact ⟨Nat.lt_succ_of_lt hlastlt, lfb, hlget, hlty⟩
  · have hmapeq : ((init ++ ([{ last with
        description := wrapRef s.pos (pyStrip (b.text.getD "")),
        description_block := some s.pos }] : List Resource)).map fun r => r.content_block) =
        ((init ++ [last]).map fun r => r.content_block) := by
      simp [List.map_append]
    rw [hmapeq]
    exact hrs ▸ hmono
  · intro k fb hk hget htyp
    rcases Nat.lt_succ_iff_lt_or_eq.1 hk with hk | rfl
    · obtain ⟨r'', hr'', hrk⟩ := hcover k fb hk hget htyp
      rcases List.mem_append.1 (hrs ▸ hr'') with hr2 | hr2
      · exact ⟨r'', List.mem_append.2 (Or.inl hr2), hrk⟩
      · have heq : r'' = last := by simpa using hr2
        subst heq
        refine ⟨{ r'' with
            description := wrapRef s.pos (pyStrip (b.text.getD "")),
            description_block := some s.pos },
          List.mem_append.2 (Or.inr (List.mem_singleton.2 rfl)), hrk⟩
    · rw [hcur] at hget
      have hfb : b = fb := Option.some.inj hget
      subst hfb
      rw [hty] at htyp
      rcases htyp with htyp | htyp <;> exact absurd htyp (by decide)
  · intro r hr
    rcases List.mem_append.1 hr with hr | hr
    · exact hiff r (hrs ▸ List.mem_append.2 (Or.inl hr))
    · rw [List.mem_singleton] at hr
      subst hr
      constructor
      · intro hh
        exact absurd hh (wrapRef_ne_empty s.pos (pyStrip (b.text.getD "")))
      · intro hh
        exact absurd hh (by simp)
  · intro r hr j hj
    rcases List.mem_append.1 hr with hr | hr
    · obtain ⟨h1, h2, h3, h4⟩ := hsome r (hrs ▸ List.mem_append.2 (Or.inl hr)) j hj
      exact ⟨Nat.lt_succ_of_lt h1, h2, h3, h4⟩
    · rw [List.mem_singleton] at hr
      subst hr
      have hjpos : j = s.pos := by
        have : (some s.pos : Option Nat) = some j := hj
        exact (Option.some.inj this).symm
      subst hjpos
      exact ⟨Nat.lt_succ_self _, hlastlt, ⟨b, hcur, hty, rfl⟩, hnocross⟩
  · intro r hr hrnone k fb hk1 hk2 hget hcap
    rcases List.mem_append.1 hr with hr | hr
    · rcases Nat.lt_succ_iff_lt_or_eq.1 hk2 with hk2 | rfl
      · exact hnone r (hrs ▸ List.mem_append.2 (Or.inl hr)) hrnone k fb hk1 hk2 hget hcap
      · exact ⟨last.content_block, lfb, mem_init_lt_last (hrs ▸ hmono) hr, hlastlt,
          hlget, hlty⟩
    · rw [List.mem_singleton] at hr
      subst hr
      exact absurd hrnone (by simp)


theorem resourceInv_step (frags : List Block) (m : List (String × String))
    (s : CompileState) (b : Block) (hcur : frags[s.pos]? = some b)
    (h : ResourceInv frags s) : ResourceInv frags (processBlock m s b) := by
  by_cases h1 : b.type = "Section header"
  · have hnp : b.type ≠ "Picture" := by rw [h1]; decide
    have hnt : b.type ≠ "Table" := by rw [h1]; decide
    have hnc : b.type ≠ "Caption" := by rw [h1]; decide
    rcases hmg : dictGet m (pyStrip (b.text.getD "")) with _ | v
    · rw [processBlock_header_other m s b h1 (Or.inl hmg)]
      exact resourceInv_noop frags s b hcur hnp hnt hnc h _ (flush_resources s) rfl
    · by_cases hcond : v ≠ "" ∧ pyLower v ≠ "none"
      · rw [processBlock_header_mapped m s b h1 hmg hcond.1 hcond.2]
        exact resourceInv_noop frags s b hcur hnp hnt hnc h _ (flush_resources s) rfl
      · have hvv : v = "" ∨ pyLower v = "none" := by
          by_cases hv1 : v = ""
          · exact Or.inl hv1
          · refine Or.inr ?_
            by_contra hv2
            exact hcond ⟨hv1, hv2⟩
        rw [processBlock_header_other m s b h1 (Or.inr ⟨v, hmg, hvv⟩)]
        exact resourceInv_noop frags s b hcur hnp hnt hnc h _ (flush_resources s) rfl
  · by_cases h2 : b.type = "Picture"
    · rw [processBlock_picture m s b h2]
      exact resourceInv_resource_step frags s b hcur (Or.inl h2) h
        ⟨imageRef s.image_counter, pyStrip (b.text.getD ""), "image", "", s.pos, none⟩
        rfl rfl rfl _ rfl rfl
    · by_cases h3 : b.type = "Table"
      · rw [processBlock_table m s b h3]
        exact resourceInv_resource_step frags s b hcur (Or.inr h3) h
          ⟨tableRef s.table_counter, pyStrip (b.text.getD ""), "table", "", s.pos, none⟩
          rfl rfl rfl _ rfl rfl
      · by_cases h4 : b.type = "Caption"
        · cases hlast : s.resources.getLast? with
          | none =>
            have hres : s.resources = [] := List.getLast?_eq_none_iff.1 hlast
            rw [processBlock_caption_no_resource m s b h4 hres]
            by_cases h5 : pyStrip (b.text.getD "") = ""
            · rw [processBlock_other_empty m s { b with type := "Text" }
                (by simp) (by simp) (by simp) (by simp) h5]
              exact resourceInv_caption_noop frags s b hcur h4 (Or.inl hres) h _ rfl rfl
            · rw [processBlock_other_text m s { b with type := "Text" }
                (by simp) (by simp) (by simp) (by simp) h5]
              exact resourceInv_caption_noop frags s b hcur h4 (Or.inl hres) h _ rfl rfl
          | some last =>
            by_cases hdesc : last.description = ""
            · rw [processBlock_caption_claim m s b h4 hlast hdesc]
              exact resourceInv_claim_step frags s b hcur h4 hlast hdesc h _ rfl rfl
            · rw [processBlock_caption_described m s b h4 hlast hdesc]
              exact resourceInv_caption_noop frags s b hcur h4
                (Or.inr ⟨last, hlast, hdesc⟩) h _ rfl rfl
        · by_cases h5 : pyStrip (b.text.getD "") = ""
          · rw [processBlock_other_empty m s b h1 h2 h3 h4 h5]
            exact resourceInv_noop frags s b hcur h2 h3 h4 h _ rfl rfl
          · rw [processBlock_other_text m s b h1 h2 h3 h4 h5]
            exact resourceInv_noop frags s b hcur h2 h3 h4 h _ rfl rfl

theorem resourceInv_fold (frags : List Block) (m : List (String × String)) :
    ∀ (rest : List Block) (s : CompileState), ResourceInv frags s →
      frags.drop s.pos = rest → ResourceInv frags (rest.foldl (processBlock m) s) := by
  intro rest
  induction rest with
  | nil => intro s h _; exact h
  | cons b rest ih =>
    intro s h hdrop
    have hcur : frags[s.pos]? = some b := by
      have h0 := List.getElem?_drop frags s.pos 0
      rw [hdrop] at h0
      simpa using h0.symm
    refine ih (processBlock m s b) (resourceInv_step frags m s b hcur h) ?_
    rw [processBlock_pos]
    rw [← List.drop_drop 1 s.pos frags, hdrop]
    rfl

/-- C2: each resource's description is set at most once, by the first
Caption fragment after the resource with no other resource or caption in
between: if `description_block = some j` then fragment `j` is a Caption,
it lies strictly after the resource's own fragment, the description is the
caption's stripped text wrapped with marker `j`, and no Picture, Table or
Caption fragment lies strictly between; if `description_block = none` then
every later Caption is separated from this resource by an intervening
resource fragment.  A description is empty exactly when it was never set.
The spec's Picture+Caption scenario compiles exactly as stated, with the
caption text not duplicated into the content entry. -/
theorem caption_binds_first_unclaimed (frags : List Block) (m : List (String × String)) :
    (∀ r ∈ (compileParsedContent frags m).resources,
      (r.description = "" ↔ r.description_block = none) ∧
      (∀ j, r.description_block = some j →
        r.content_block < j ∧
        (∃ fb, frags[j]? = some fb ∧ fb.type = "Caption" ∧
          r.description = wrapRef j (pyStrip (fb.text.getD ""))) ∧
        (∀ k fb, r.content_block < k → k < j → frags[k]? = some fb →
          fb.type ≠ "Picture" ∧ fb.type ≠ "Table" ∧ fb.type ≠ "Caption")) ∧
      (r.description_block = none →
        ∀ k fb, r.content_block < k → frags[k]? = some fb → fb.type = "Caption" →
          ∃ k' fb', r.content_block < k' ∧ k' < k ∧ frags[k']? = some fb' ∧
            (fb'.type = "Picture" ∨ fb'.type = "Table"))) ∧
    compileParsedContent [⟨"Picture", some "imgdata"⟩, ⟨"Caption", some "Fig 1"⟩] [] =
      { content := [⟨"section_1", "", "subsection_1", "", wrapRef 0 (imageRef 1)⟩],
        resources := [⟨imageRef 1, "imgdata", "image", wrapRef 1 "Fig 1", 0, some 1⟩] } := by
  constructor
  · have hinv := resourceInv_fold frags m frags initState (resourceInv_init frags) rfl
    obtain ⟨hlen, hcb, hmono, hcover, hiff, hsome, hnone⟩ := hinv
    have hfpos : (frags.foldl (processBlock m) initState).pos = frags.length := by
      rw [foldl_processBlock_pos]
      simp [initState]
    have hres : (compileParsedContent frags m).resources =
        (frags.foldl (processBlock m) initState).resources := by
      simp only [compileParsedContent]
      rw [flush_resources]
    rw [hres]
    intro r hr
    refine ⟨hiff r hr, ?_, ?_⟩
    · intro j hj
      obtain ⟨h1, h2, h3, h4⟩ := hsome r hr j hj
      exact ⟨h2, h3, h4⟩
    · intro hrn k fb hk hget hcap
      have hklen : k < frags.length := getElem?_some_lt hget
      exact hnone r hr hrn k fb hk (by rw [hfpos]; exact hklen) hget hcap
  · decide

/-- Witness for `caption_binds_first_unclaimed` at the Picture+Caption
scenario: the sole resource's `description_block = some 1` is validated by
the theorem's characterization. -/
theorem caption_binds_first_unclaimed_witness :
    ((⟨imageRef 1, "imgdata", "image", wrapRef 1 "Fig 1", 0, some 1⟩ : Resource) ∈
        (compileParsedContent [⟨"Picture", some "imgdata"⟩, ⟨"Caption", some "Fig 1"⟩]
          []).resources) ∧
    (0 < 1 ∧
      (∃ fb, ([⟨"Picture", some "imgdata"⟩, ⟨"Caption", some "Fig 1"⟩] :
          List Block)[1]? = some fb ∧ fb.type = "Caption" ∧
        wrapRef 1 "Fig 1" = wrapRef 1 (pyStrip (fb.text.getD ""))) ∧
      (∀ k fb, 0 < k → k < 1 →
        ([⟨"Picture", some "imgdata"⟩, ⟨"Caption", some "Fig 1"⟩] :
          List Block)[k]? = some fb →
        fb.type ≠ "Picture" ∧ fb.type ≠ "Table" ∧ fb.type ≠ "Caption")) :=
  ⟨by decide,
   ((caption_binds_first_unclaimed
       [⟨"Picture", some "imgdata"⟩, ⟨"Caption", some "Fig 1"⟩] []).1
     ⟨imageRef 1, "imgdata", "image", wrapRef 1 "Fig 1", 0, some 1⟩ (by decide)).2.1 1 rfl⟩

end Viz
